import Mathlib

/-!
# Verification of the shift-assignment scheduler (`assign_shifts.py`)

Shallow embedding of the backtracking shift scheduler.  The source mutates a
schedule dictionary in place from a recursive helper; the embedding threads an
explicit state through the recursion.  Python runtime faults that the control
flow can actually produce (reading the local `leader_this_week` before it is
assigned, indexing `seq[-1]` on a missing entry) are modelled with `Except`.

The configuration constants (`MIN_SETUP`, `MAX_SHIFTS`, ... imported from the
repository's `constants` module, which is not part of the sources here) are
modelled from the spec: Section 6 describes them as external, read-only
configuration supplied by the caller, so the embedding takes them as a
`Config` parameter.  `MODE == "shadowing"` becomes the Boolean
`Config.shadowing`.

The schedule dictionary is keyed by week label and iterated in insertion
order; it is modelled positionally as a list of per-week groups, which is
faithful whenever the week labels are pairwise distinct (the week keys are
only used to address the current week's slot).
-/

namespace AssignShifts

/-- A person's roster entry: preference token ("s", "c", "s/c" or "" when the
line carried no token), leader flag, shadow flag (`False` when the mode is not
"shadowing", matching `preferences.get("is_shadow", False)`). -/
structure Prefs where
  preference : String
  leader : Bool
  shadow : Bool
deriving DecidableEq, Repr

/-- An assignment record appended to a week's group, with the exact fields the
Python dict literal carries. -/
structure Record where
  name : String
  leader : Bool
  shadow : Bool
  shadowThisWeek : Bool
  leaderThisWeek : Bool
deriving DecidableEq, Repr

/-- One week's two groups. -/
structure Groups where
  setup : List Record
  cleanup : List Record
deriving DecidableEq, Repr

instance : Inhabited Groups := ⟨⟨[], []⟩⟩

/-- The schedule: per-week groups, in week order. -/
abbrev Schedule := List Groups

/-- External configuration; modelled from the spec (§6): the constants module
is not part of the sources, the spec says they are caller-supplied read-only
inputs. -/
structure Config where
  MIN_SETUP : Nat
  MIN_CLEANUP : Nat
  MIN_SHIFTS : Nat
  MAX_SHIFTS : Nat
  MAX_CONSECUTIVE_SHIFTS : Nat
  NUM_SETUP_LEADERS : Nat
  NUM_CLEANUP_LEADERS : Nat
  NUM_SETUP_SHADOWS : Nat
  NUM_CLEANUP_SHADOWS : Nat
  shadowing : Bool
deriving DecidableEq, Repr

/-! ## Shift Tracker (`track_person_shifts`) -/

/-- The run-sequence update applied per occurrence: discard the accumulated
sequence if its last element is not `week_index - 1`, then append the current
week index (source lines 67-71, 74-79, 81-86). -/
def runUpdate (w : Nat) (s : List Nat) : List Nat :=
  (if 0 < s.length ∧ (s.getLastD 0 : Int) ≠ (w : Int) - 1 then [] else s) ++ [w]

/-- The four dictionaries built by `track_person_shifts`, modelled as total
functions with the Python `dict.get` defaults (`0` resp. `[]`). -/
structure TrackState where
  count : String → Nat
  seq : String → List Nat
  lseq : String → List Nat
  sseq : String → List Nat

/-- Processing of one assignment record at week `w` (body of the inner loop of
`track_person_shifts`). -/
def trackRecord (w : Nat) (st : TrackState) (r : Record) : TrackState where
  count := Function.update st.count r.name (st.count r.name + 1)
  seq := Function.update st.seq r.name (runUpdate w (st.seq r.name))
  lseq :=
    if r.leaderThisWeek then
      Function.update st.lseq r.name (runUpdate w (st.lseq r.name))
    else st.lseq
  sseq :=
    if r.shadowThisWeek then
      Function.update st.sseq r.name (runUpdate w (st.sseq r.name))
    else st.sseq

/-- Processing of one week: setup group then cleanup group. -/
def trackWeek (st : TrackState) (p : Nat × Groups) : TrackState :=
  (p.2.setup ++ p.2.cleanup).foldl (trackRecord p.1) st

/-- `track_person_shifts`: fold over the weeks in order, with their indices. -/
def track_person_shifts (sched : Schedule) : TrackState :=
  sched.enum.foldl trackWeek ⟨fun _ => 0, fun _ => [], fun _ => [], fun _ => []⟩

/-! ## Whole-schedule validator (`is_valid_assignment`) -/

/-- All names appearing in the schedule (the key set of the tracker's
dictionaries, possibly with repetitions). -/
def schedNames (sched : Schedule) : List String :=
  sched.foldr (fun g acc => (g.setup ++ g.cleanup).map Record.name ++ acc) []

/-- Number of records in a group serving as leader this week
(`sum(p["leader_this_week"] for p in ...)`). -/
def leadersIn (l : List Record) : Nat :=
  (l.filter (·.leaderThisWeek)).length

/-- `is_valid_assignment` (source lines 92-140).  The early-returning loop and
check sequence of the source compute the conjunction of all criteria; `print`
diagnostics are side effects with no bearing on the returned Boolean. -/
def is_valid_assignment (cfg : Config) (sched : Schedule) : Bool :=
  let ts := track_person_shifts sched
  (sched.all fun g =>
    (decide (cfg.MIN_SETUP ≤ g.setup.length) &&
     decide (cfg.NUM_SETUP_LEADERS ≤ leadersIn g.setup)) &&
    (decide (cfg.MIN_CLEANUP ≤ g.cleanup.length) &&
     decide (cfg.NUM_CLEANUP_LEADERS ≤ leadersIn g.cleanup)) &&
    (!cfg.shadowing ||
      (g.setup.any (·.leaderThisWeek) && g.setup.any (·.shadowThisWeek) &&
       g.cleanup.any (·.leaderThisWeek) && g.cleanup.any (·.shadowThisWeek)))) &&
  ((schedNames sched).all fun n =>
    decide ((ts.lseq n).length ≤ cfg.MAX_CONSECUTIVE_SHIFTS)) &&
  ((schedNames sched).all fun n =>
    decide ((ts.seq n).length ≤ cfg.MAX_CONSECUTIVE_SHIFTS)) &&
  ((schedNames sched).all fun n =>
    decide ((ts.sseq n).length ≤ cfg.MAX_CONSECUTIVE_SHIFTS)) &&
  ((schedNames sched).all fun n =>
    decide (cfg.MIN_SHIFTS ≤ ts.count n) && decide (ts.count n ≤ cfg.MAX_SHIFTS))

/-! ## Backtracking Scheduler (`assign_shifts_backtracker`) -/

/-- Python runtime faults the scheduler's control flow can produce:
`unboundLocal` models `UnboundLocalError` on reading `leader_this_week`
before assignment (line 252/257); `indexErr` models the `[-1]` /
`dict[person]` access in a consecutive check when the entry is absent. -/
inductive PyErr
  | unboundLocal
  | indexErr
deriving DecidableEq, Repr

/-- The mutable search state captured by the closure: the schedule plus the
`leader_last_week` / `shadow_last_week` bookkeeping dictionaries, and a
counter indexing successive `random.shuffle` calls. -/
structure SState where
  sched : Schedule
  leader_last_week : String → List Nat
  shadow_last_week : String → List Nat
  ctr : Nat

/-- The current week's groups (`assignment_dict[current_week]`). -/
def getWeek (st : SState) (idx : Nat) : Groups :=
  st.sched.getD idx ⟨[], []⟩

/-- In-place mutation of the current week's slot. -/
def updWeek (st : SState) (idx : Nat) (f : Groups → Groups) : SState :=
  { st with sched := st.sched.set idx (f (st.sched.getD idx ⟨[], []⟩)) }

/-- Number of shifts a person already holds; the sort key
`len([shift for week in assignment_dict.values() ... if shift["name"] == x[0]])`. -/
def countName (sched : Schedule) (n : String) : Nat :=
  (sched.foldr (fun g acc => (g.setup ++ g.cleanup) ++ acc) []).countP
    fun r => decide (r.name = n)

/-- Stable insertion keeping ties in encounter order, as Python's stable
`sorted`. -/
def stableInsert (key : α → Nat) (x : α) : List α → List α
  | [] => [x]
  | y :: ys => if key y ≤ key x then y :: stableInsert key x ys else x :: y :: ys

/-- Stable ascending sort by key (Python `sorted(..., key=...)`). -/
def stableSortBy (key : α → Nat) (l : List α) : List α :=
  l.foldl (fun acc x => stableInsert key x acc) []

/-- Whether a person is already assigned this week in either group
(`any(person == p["name"] for p in setup + cleanup)`). -/
def occursInWeek (g : Groups) (n : String) : Bool :=
  (g.setup ++ g.cleanup).any fun r => decide (r.name = n)

/-- One consecutive-run test
`len(d.get(p, [])) >= MAX and d[p][-1] == (index - 1)`.
When the guard fires on an absent entry (possible only for
`MAX_CONSECUTIVE_SHIFTS = 0`, since present entries are nonempty) the `d[p]`
lookup raises, modelled as `indexErr`.  `index - 1` is Python integer
arithmetic, hence the `Int` cast. -/
def seqBlock (maxC : Nat) (idx : Int) (s : List Nat) : Except PyErr Bool :=
  if maxC ≤ s.length then
    match s.getLast? with
    | none => .error .indexErr
    | some l => .ok (decide ((l : Int) = idx - 1))
  else .ok false

/-- The per-candidate pruning block shared verbatim by the three phases of
`backtracking_helper` (source lines 192-212, 273-293, 352-371): recompute the
tracker, then skip the candidate if already assigned this week, at the total
shift cap, or at the consecutive cap for the any-shift, leader or shadow
run. -/
def candidateSkip (cfg : Config) (sched : Schedule) (idx : Nat) (person : String) :
    Except PyErr Bool := do
  let ts := track_person_shifts sched
  let g := sched.getD idx ⟨[], []⟩
  if occursInWeek g person then return true
  if cfg.MAX_SHIFTS ≤ ts.count person then return true
  if (← seqBlock cfg.MAX_CONSECUTIVE_SHIFTS idx (ts.seq person)) then return true
  if (← seqBlock cfg.MAX_CONSECUTIVE_SHIFTS idx (ts.lseq person)) then return true
  if (← seqBlock cfg.MAX_CONSECUTIVE_SHIFTS idx (ts.sseq person)) then return true
  return false

/-- Result of one phase's candidate loop: `success` propagates a `True`
return from the recursion, `done` means the loop ran to completion. -/
inductive PhaseRes
  | success (st : SState)
  | done (st : SState)

/-- `d[person].append(i)` on a bookkeeping dictionary. -/
def pushBook (m : String → List Nat) (p : String) (i : Nat) : String → List Nat :=
  Function.update m p (m p ++ [i])

/-- `d[person].pop()` on a bookkeeping dictionary. -/
def popBook (m : String → List Nat) (p : String) : String → List Nat :=
  Function.update m p ((m p).dropLast)

/-- The leader-loop backtrack block (source lines 249-258) pops the last
setup and/or cleanup record according to the *current candidate's* preference
token, reading the frame variable `leader_this_week`; reading it before any
assignment in this frame raises, and the bookkeeping pop targets the current
candidate's `leader_last_week` entry.  This is
its setup half (source lines 250-253): pop the last setup record when the
candidate's preference admits setup, then read `leader_this_week` and maybe
retract the candidate's bookkeeping. -/
def leaderUndoSetup (idx : Nat) (person : String) (pf : Prefs) (ltw : Option Bool)
    (st : SState) : Except PyErr SState :=
  if (pf.preference = "s" || pf.preference = "s/c") &&
      decide (0 < (getWeek st idx).setup.length) then
    let s := updWeek st idx fun g => { g with setup := g.setup.dropLast }
    match ltw with
    | none => Except.error .unboundLocal
    | some b =>
      if b && !(s.leader_last_week person).isEmpty then
        pure { s with leader_last_week := popBook s.leader_last_week person }
      else pure s
  else pure st

/-- Cleanup half of the leader-loop backtrack block (source lines 255-258). -/
def leaderUndoCleanup (idx : Nat) (person : String) (pf : Prefs) (ltw : Option Bool)
    (st : SState) : Except PyErr SState :=
  if (pf.preference = "c" || pf.preference = "s/c") &&
      decide (0 < (getWeek st idx).cleanup.length) then
    let s := updWeek st idx fun g => { g with cleanup := g.cleanup.dropLast }
    match ltw with
    | none => Except.error .unboundLocal
    | some b =>
      if b && !(s.leader_last_week person).isEmpty then
        pure { s with leader_last_week := popBook s.leader_last_week person }
      else pure s
  else pure st

/-- The two halves in sequence. -/
def leaderUndo (idx : Nat) (person : String) (pf : Prefs) (ltw : Option Bool)
    (st : SState) : Except PyErr SState := do
  leaderUndoCleanup idx person pf ltw (← leaderUndoSetup idx person pf ltw st)

/-- Setup half of the shadow-loop backtrack block (source lines 333-336);
`stw` is the iteration-local `shadow_this_week`, always initialised at the
top of the iteration, so no unbound read is possible here. -/
def shadowUndoSetup (idx : Nat) (person : String) (pf : Prefs) (stw : Bool)
    (st : SState) : SState :=
  if (pf.preference = "s" || pf.preference = "s/c") &&
      decide (0 < (getWeek st idx).setup.length) then
    let s := updWeek st idx fun g => { g with setup := g.setup.dropLast }
    if stw && !(s.shadow_last_week person).isEmpty then
      { s with shadow_last_week := popBook s.shadow_last_week person }
    else s
  else st

/-- Cleanup half of the shadow-loop backtrack block (source lines 338-341). -/
def shadowUndoCleanup (idx : Nat) (person : String) (pf : Prefs) (stw : Bool)
    (st : SState) : SState :=
  if (pf.preference = "c" || pf.preference = "s/c") &&
      decide (0 < (getWeek st idx).cleanup.length) then
    let s := updWeek st idx fun g => { g with cleanup := g.cleanup.dropLast }
    if stw && !(s.shadow_last_week person).isEmpty then
      { s with shadow_last_week := popBook s.shadow_last_week person }
    else s
  else st

/-- The shadow-loop backtrack block (source lines 332-341). -/
def shadowUndo (idx : Nat) (person : String) (pf : Prefs) (stw : Bool)
    (st : SState) : SState :=
  shadowUndoCleanup idx person pf stw (shadowUndoSetup idx person pf stw st)

/-- Setup half of the participant-loop backtrack block (source lines
400-401): pop only, no bookkeeping. -/
def participantUndoSetup (idx : Nat) (pf : Prefs) (st : SState) : SState :=
  if (pf.preference = "s" || pf.preference = "s/c") &&
      decide (0 < (getWeek st idx).setup.length) then
    updWeek st idx fun g => { g with setup := g.setup.dropLast }
  else st

/-- Cleanup half of the participant-loop backtrack block (source lines
403-404). -/
def participantUndoCleanup (idx : Nat) (pf : Prefs) (st : SState) : SState :=
  if (pf.preference = "c" || pf.preference = "s/c") &&
      decide (0 < (getWeek st idx).cleanup.length) then
    updWeek st idx fun g => { g with cleanup := g.cleanup.dropLast }
  else st

/-- The participant-loop backtrack block (source lines 399-404). -/
def participantUndo (idx : Nat) (pf : Prefs) (st : SState) : SState :=
  participantUndoCleanup idx pf (participantUndoSetup idx pf st)

/-- Step 1 of `backtracking_helper` (source lines 191-258): the loop over
`leaders_sorted` with its quota counters and the frame variable
`leader_this_week` (`none` while unassigned). -/
def leaderPhase (cfg : Config) (recurse : SState → Except PyErr (Bool × SState))
    (idx : Nat) :
    List (String × Prefs) → SState → Nat → Nat → Option Bool →
    Except PyErr PhaseRes
  | [], st, _, _, _ => .ok (.done st)
  | (person, pf) :: rest, st, remS, remC, ltw => do
    let skip ← candidateSkip cfg st.sched idx person
    if skip then
      leaderPhase cfg recurse idx rest st remS remC ltw
    else if (pf.preference = "s" || pf.preference = "s/c") &&
        decide ((getWeek st idx).setup.length < cfg.MIN_SETUP) && pf.leader &&
        decide (0 < remS) then
      let s := updWeek st idx fun g =>
        { g with setup := g.setup ++ [⟨person, pf.leader, pf.shadow, false, true⟩] }
      let s := { s with leader_last_week := pushBook s.leader_last_week person idx }
      leaderPhase cfg recurse idx rest s (remS - 1) remC (some true)
    else if (pf.preference = "c" || pf.preference = "s/c") &&
        decide ((getWeek st idx).cleanup.length < cfg.MIN_CLEANUP) && pf.leader &&
        decide (0 < remC) then
      let s := updWeek st idx fun g =>
        { g with cleanup := g.cleanup ++ [⟨person, pf.leader, pf.shadow, false, true⟩] }
      let s := { s with leader_last_week := pushBook s.leader_last_week person idx }
      leaderPhase cfg recurse idx rest s remS (remC - 1) (some true)
    else if (getWeek st idx).setup.length = cfg.MIN_SETUP ∧
        (getWeek st idx).cleanup.length = cfg.MIN_CLEANUP then do
      let r ← recurse st
      if r.1 then .ok (.success r.2)
      else do
        let s ← leaderUndo idx person pf ltw r.2
        leaderPhase cfg recurse idx rest s remS remC ltw
    else
      leaderPhase cfg recurse idx rest st remS remC ltw

/-- Step 1a of `backtracking_helper` (source lines 269-341): the loop over
`shadows_sorted`, with the early `break` once both shadow quotas are
exhausted and the iteration-local `shadow_this_week`. -/
def shadowPhase (cfg : Config) (recurse : SState → Except PyErr (Bool × SState))
    (idx : Nat) :
    List (String × Prefs) → SState → Nat → Nat → Except PyErr PhaseRes
  | [], st, _, _ => .ok (.done st)
  | (person, pf) :: rest, st, remS, remC => do
    if remS = 0 ∧ remC = 0 then .ok (.done st)
    else do
      let skip ← candidateSkip cfg st.sched idx person
      if skip then
        shadowPhase cfg recurse idx rest st remS remC
      else if (pf.preference = "s" || pf.preference = "s/c") &&
          decide ((getWeek st idx).setup.length < cfg.MIN_SETUP) && pf.shadow &&
          decide (0 < remS) then
        let s := updWeek st idx fun g =>
          { g with setup := g.setup ++ [⟨person, false, pf.shadow, true, false⟩] }
        let s := { s with shadow_last_week := pushBook s.shadow_last_week person idx }
        shadowPhase cfg recurse idx rest s (remS - 1) remC
      else if (pf.preference = "c" || pf.preference = "s/c") &&
          decide ((getWeek st idx).cleanup.length < cfg.MIN_CLEANUP) && pf.shadow &&
          decide (0 < remC) then
        let s := updWeek st idx fun g =>
          { g with cleanup := g.cleanup ++ [⟨person, false, pf.shadow, true, false⟩] }
        let s := { s with shadow_last_week := pushBook s.shadow_last_week person idx }
        shadowPhase cfg recurse idx rest s remS (remC - 1)
      else if (getWeek st idx).setup.length = cfg.MIN_SETUP ∧
          (getWeek st idx).cleanup.length = cfg.MIN_CLEANUP then do
        let r ← recurse st
        if r.1 then .ok (.success r.2)
        else
          shadowPhase cfg recurse idx rest (shadowUndo idx person pf false r.2) remS remC
      else
        shadowPhase cfg recurse idx rest st remS remC

/-- Result of one participant-loop iteration. -/
inductive StepRes
  | success (st : SState)
  | next (st : SState)

/-- One iteration of the Step-2 participant loop (source lines 351-404):
pruning checks, the non-continuing append to setup or cleanup, and - when the
week is at its exact targets - recursion followed by the pop-based undo. -/
def participantStep (cfg : Config) (recurse : SState → Except PyErr (Bool × SState))
    (idx : Nat) (person : String) (pf : Prefs) (st : SState) :
    Except PyErr StepRes := do
  let skip ← candidateSkip cfg st.sched idx person
  if skip then .ok (.next st)
  else do
    let st :=
      if (pf.preference = "s" || pf.preference = "s/c") &&
          decide ((getWeek st idx).setup.length < cfg.MIN_SETUP) then
        updWeek st idx fun g =>
          { g with setup := g.setup ++ [⟨person, pf.leader, pf.shadow, false, false⟩] }
      else if (pf.preference = "c" || pf.preference = "s/c") &&
          decide ((getWeek st idx).cleanup.length < cfg.MIN_CLEANUP) then
        updWeek st idx fun g =>
          { g with cleanup := g.cleanup ++ [⟨person, pf.leader, pf.shadow, false, false⟩] }
      else st
    if (getWeek st idx).setup.length = cfg.MIN_SETUP ∧
        (getWeek st idx).cleanup.length = cfg.MIN_CLEANUP then do
      let r ← recurse st
      if r.1 then .ok (.success r.2)
      else .ok (.next (participantUndo idx pf r.2))
    else .ok (.next st)

/-- Step 2 of `backtracking_helper`: the loop over all participants. -/
def participantsPhase (cfg : Config) (recurse : SState → Except PyErr (Bool × SState))
    (idx : Nat) :
    List (String × Prefs) → SState → Except PyErr PhaseRes
  | [], st => .ok (.done st)
  | (person, pf) :: rest, st => do
    let r ← participantStep cfg recurse idx person pf st
    match r with
    | .success s => .ok (.success s)
    | .next s => participantsPhase cfg recurse idx rest s

/-- `backtracking_helper` (source lines 158-406).  `oracle` supplies the
outcome of each successive `random.shuffle` (indexed by the state counter);
`fuel` bounds the recursion depth, with `weeks.length + 1 - idx` always
sufficient since each recursive call moves to `idx + 1` and the helper
returns `True` at `idx = numWeeks`. -/
def backtracking_helper (cfg : Config) (prefsL : List (String × Prefs))
    (numWeeks : Nat)
    (oracle : Nat → List (String × Prefs) → List (String × Prefs)) :
    Nat → Nat → SState → Except PyErr (Bool × SState)
  | 0, _, st => .ok (false, st)
  | fuel + 1, idx, st =>
    if idx = numWeeks then .ok (true, st)
    else do
      let shuffled := oracle st.ctr prefsL
      let st := { st with ctr := st.ctr + 1 }
      let leaders := shuffled.filter fun p => p.2.leader
      let shadows := shuffled.filter fun p => p.2.shadow && !p.2.leader
      let leadersSorted := stableSortBy (fun p => countName st.sched p.1) leaders
      let r1 ← leaderPhase cfg
        (fun s => backtracking_helper cfg prefsL numWeeks oracle fuel (idx + 1) s)
        idx leadersSorted st cfg.NUM_SETUP_LEADERS cfg.NUM_CLEANUP_LEADERS none
      match r1 with
      | .success s => .ok (true, s)
      | .done st => do
        let shadowsSorted := stableSortBy (fun p => countName st.sched p.1) shadows
        let r2 ← shadowPhase cfg
          (fun s => backtracking_helper cfg prefsL numWeeks oracle fuel (idx + 1) s)
          idx shadowsSorted st cfg.NUM_SETUP_SHADOWS cfg.NUM_CLEANUP_SHADOWS
        match r2 with
        | .success s => .ok (true, s)
        | .done st => do
          let parts := stableSortBy (fun p => countName st.sched p.1) shuffled
          let r3 ← participantsPhase cfg
            (fun s => backtracking_helper cfg prefsL numWeeks oracle fuel (idx + 1) s)
            idx parts st
          match r3 with
          | .success s => .ok (true, s)
          | .done st => .ok (false, st)

/-- `assign_shifts_backtracker` (source lines 143-413): build the empty
schedule and bookkeeping, run the helper from week 0, and return the filled
schedule on success or `none` on exhausted search. -/
def assign_shifts_backtracker (cfg : Config) (prefsL : List (String × Prefs))
    (weeks : List String)
    (oracle : Nat → List (String × Prefs) → List (String × Prefs)) :
    Except PyErr (Option Schedule) := do
  let st0 : SState :=
    ⟨List.replicate weeks.length ⟨[], []⟩, fun _ => [], fun _ => [], 0⟩
  let r ← backtracking_helper cfg prefsL weeks.length oracle (weeks.length + 1) 0 st0
  if r.1 then .ok (some r.2.sched) else .ok none

/-! ## Driver (`run`) -/

/-- What the driver hands its caller: a finished schedule, or the
`ValueError` raised by the leader-count precondition. -/
inductive Outcome
  | success (sched : Schedule)
  | precondFailure
deriving Repr

/-- Number of roster entries flagged as leaders
(`sum(1 for v in preference_dict.values() if v["is_leader"])`). -/
def countLeaders (prefsL : List (String × Prefs)) : Nat :=
  (prefsL.filter fun p => p.2.leader).length

/-- The driver's `while assignment_dict is None` retry loop, bounded by
`fuel` observation steps; `.ok none` means the loop is still running after
`fuel` calls to the backtracker.  `oracles k` supplies the shuffle stream of
the `k`-th call. -/
def runRetries (cfg : Config) (prefsL : List (String × Prefs)) (weeks : List String)
    (oracles : Nat → Nat → List (String × Prefs) → List (String × Prefs)) :
    Nat → Nat → Except PyErr (Option Outcome)
  | 0, _ => .ok none
  | fuel + 1, k => do
    let r ← assign_shifts_backtracker cfg prefsL weeks (oracles k)
    match r with
    | some s => .ok (some (.success s))
    | none => runRetries cfg prefsL weeks oracles fuel (k + 1)

/-- `run` (source lines 521-534), with the preference file already parsed
into `prefsL` and the report writing abstracted away: raise the leader-count
precondition `ValueError` before any search, otherwise call the backtracker
and retry while it returns `None`. -/
def run (cfg : Config) (prefsL : List (String × Prefs)) (weeks : List String)
    (oracles : Nat → Nat → List (String × Prefs) → List (String × Prefs))
    (fuel : Nat) : Except PyErr (Option Outcome) :=
  if countLeaders prefsL < weeks.length then .ok (some .precondFailure)
  else runRetries cfg prefsL weeks oracles fuel 0

/-! ## Spec-side definitions

These follow the spec's words rather than the source, for comparison with the
source-derived functions above. -/

/-- Weeks (by index) in which a person holds a role, in week order; the role
is selected by `f` (any shift, leader this week, shadow this week). -/
def occWeeksFrom (f : Record → Bool) (n : String) : List (Nat × Groups) → List Nat
  | [] => []
  | (i, g) :: rest =>
    (if (g.setup ++ g.cleanup).any (fun r => decide (r.name = n) && f r) then [i] else []) ++
      occWeeksFrom f n rest

/-- Occurrence weeks of person `n` in role `f` across the schedule. -/
def occWeeksBy (f : Record → Bool) (sched : Schedule) (n : String) : List Nat :=
  occWeeksFrom f n sched.enum

/-- Longest block of values descending by exactly one, starting from `prev`,
read off a reversed occurrence list. -/
def consecFrom : Int → List Nat → List Nat
  | _, [] => []
  | prev, x :: xs => if (x : Int) = prev - 1 then x :: consecFrom (x : Int) xs else []

/-- Modelled from the spec (§4.1): the maximal trailing set of strictly
consecutive week indices of an occurrence list - "a run is a maximal set of
strictly consecutive week indices, and only the current run length matters". -/
def spec_trailing (l : List Nat) : List Nat :=
  match l.reverse with
  | [] => []
  | x :: xs => ((x : Nat) :: consecFrom (x : Int) xs).reverse

/-- Total number of assignment records bearing a person's name, across all
weeks and both groups. -/
def countRecords (sched : Schedule) (n : String) : Nat :=
  (sched.map fun g => ((g.setup ++ g.cleanup).filter fun r => decide (r.name = n)).length).sum

/-- Fold step computing the longest consecutive run anywhere in a list of
week indices: state is (best, previous element, current run length). -/
def lrStep : Nat × Option Nat × Nat → Nat → Nat × Option Nat × Nat
  | (best, last, cur), i =>
    let cur2 :=
      match last with
      | some l2 => if (l2 : Int) + 1 = (i : Int) then cur + 1 else 1
      | none => 1
    (max best cur2, some i, cur2)

/-- Modelled from the spec (§8 "Run bounds"): the longest run of consecutive
weeks, over the *whole* occurrence list (not only the trailing run). -/
def spec_longest_run (l : List Nat) : Nat :=
  (l.foldl lrStep (0, none, 0)).1

/-- Boolean form of a consecutive-run rejection for a present (or empty)
sequence; agrees with `seqBlock` whenever `1 ≤ maxC`. -/
def runBlocked (maxC : Nat) (idx : Int) (s : List Nat) : Bool :=
  decide (maxC ≤ s.length) && decide ((s.getLastD 0 : Int) = idx - 1)

/-- Schedule of a phase-step result. -/
def stepSched : StepRes → Schedule
  | .success s => s.sched
  | .next s => s.sched

/-! ## Concrete instances used by counterexamples and witnesses -/

/-- The identity shuffle outcome: one of the permutations `random.shuffle`
can produce. -/
def idOracle : Nat → List (String × Prefs) → List (String × Prefs) := fun _ l => l

/-- A recursion continuation that fails leaving the state untouched. -/
def failRecurse : SState → Except PyErr (Bool × SState) := fun s => .ok (false, s)

/-- Configuration exhibiting the `UnboundLocalError` crash. -/
def cfgCrash : Config := ⟨1, 1, 0, 2, 99, 1, 1, 0, 0, false⟩

/-- Roster exhibiting the `UnboundLocalError` crash: three leaders with fixed
preferences plus one leader with no usable token. -/
def prefsCrash : List (String × Prefs) :=
  [("A", ⟨"s", true, false⟩), ("B", ⟨"c", true, false⟩),
   ("C", ⟨"s", true, false⟩), ("D", ⟨"", true, false⟩)]

/-- Configuration for the double-pop backtracking exhibit. -/
def cfgPop : Config := ⟨1, 1, 0, 5, 5, 1, 1, 0, 0, false⟩

/-- Pre-existing cleanup record of person "B". -/
def recB : Record := ⟨"B", false, false, false, false⟩

/-- Search state whose only week has an empty setup group and person "B"
already in cleanup. -/
def stPop : SState := ⟨[⟨[], [recB]⟩], fun _ => [], fun _ => [], 0⟩

/-- Candidate preference for the double-pop exhibit: either group. -/
def pfPop : Prefs := ⟨"s/c", false, false⟩

/-- Configuration for the leader-run pruning exhibit
(`MAX_CONSECUTIVE_SHIFTS = 1`). -/
def cfgRun : Config := ⟨1, 0, 0, 5, 1, 1, 0, 0, 0, false⟩

/-- Person "P" as a setup leader in week 0. -/
def recP0 : Record := ⟨"P", true, false, false, true⟩

/-- Person "P" in setup in ordinary capacity in week 3. -/
def recP3 : Record := ⟨"P", true, false, false, false⟩

/-- Schedule where "P" led in week 0 and holds an ordinary shift in week 3;
weeks 1 and 2 are open. -/
def schedRun : Schedule := [⟨[recP0], []⟩, ⟨[], []⟩, ⟨[], []⟩, ⟨[recP3], []⟩]

/-- Search state over `schedRun`. -/
def stRun : SState := ⟨schedRun, fun _ => [], fun _ => [], 0⟩

/-- Preference entry of "P": setup, leader-capable. -/
def pfP : Prefs := ⟨"s", true, false⟩

/-- Configuration for the forgotten-run validator exhibit
(`MAX_CONSECUTIVE_SHIFTS = 1`, `MIN_SHIFTS = 1`). -/
def cfgVal : Config := ⟨1, 0, 1, 5, 1, 1, 0, 0, 0, false⟩

/-- Person "Q" as a setup leader in week 2. -/
def recQ2 : Record := ⟨"Q", true, false, false, true⟩

/-- Person "P" as setup leader in weeks 0, 1 and 3: the weeks 0-1 run of
length two is interrupted, leaving the trailing run at length one. -/
def schedVal : Schedule :=
  [⟨[recP0], []⟩, ⟨[recP0], []⟩, ⟨[recQ2], []⟩, ⟨[recP0], []⟩]

/-- Two consecutive weeks of "P": a trailing run of length two. -/
def schedTrail : Schedule := [⟨[recP0], []⟩, ⟨[recP0], []⟩]

/-- A feasible one-week instance: one setup leader plus one inert person to
trigger the week-complete recursion. -/
def prefsOne : List (String × Prefs) :=
  [("A", ⟨"s", true, false⟩), ("B", ⟨"", false, false⟩)]

/-- Configuration for the feasible one-week instance. -/
def cfgOne : Config := ⟨1, 0, 0, 5, 5, 1, 0, 0, 0, false⟩

/-- The schedule the backtracker returns on the one-week instance. -/
def schedOne : Schedule := [⟨[⟨"A", true, false, false, true⟩], []⟩]

/-- An infeasible instance for the retry loop: one setup-only leader, one
week, but `MIN_CLEANUP = 1` with nobody able to serve cleanup. -/
def prefsInf : List (String × Prefs) := [("A", ⟨"s", true, false⟩)]

/-- Configuration for the infeasible retry-loop instance. -/
def cfgInf : Config := ⟨1, 1, 0, 5, 5, 1, 0, 0, 0, false⟩

/-! ## Invariant predicates -/

/-- No person occurs twice in a week, across both groups. -/
def weekClean (g : Groups) : Prop :=
  ((g.setup ++ g.cleanup).map Record.name).Nodup

/-- Everyone in the week is assigned compatibly with a roster entry for their
name: setup members prefer "s" or "s/c", cleanup members "c" or "s/c". -/
def prefOK (prefsL : List (String × Prefs)) (g : Groups) : Prop :=
  (∀ r ∈ g.setup, ∃ p, (r.name, p) ∈ prefsL ∧
    (p.preference = "s" ∨ p.preference = "s/c")) ∧
  (∀ r ∈ g.cleanup, ∃ p, (r.name, p) ∈ prefsL ∧
    (p.preference = "c" ∨ p.preference = "s/c"))

/-- The week is at its exact fill targets. -/
def fullWeek (cfg : Config) (g : Groups) : Prop :=
  g.setup.length = cfg.MIN_SETUP ∧ g.cleanup.length = cfg.MIN_CLEANUP

/-- All cleanup groups of the state are empty. -/
def NoCleanup (st : SState) : Prop := ∀ g ∈ st.sched, g.cleanup = []

/-- `weekClean` is decidable. -/
instance decWeekClean (g : Groups) : Decidable (weekClean g) :=
  inferInstanceAs (Decidable ((g.setup ++ g.cleanup).map Record.name).Nodup)

/-- Every week of the schedule satisfies the no-double-booking invariant. -/
def CleanSched (sched : Schedule) : Prop := ∀ g ∈ sched, weekClean g

/-- Every week of the schedule respects the roster preference tokens. -/
def PrefSched (prefsL : List (String × Prefs)) (sched : Schedule) : Prop :=
  ∀ g ∈ sched, prefOK prefsL g

/-- Weeks `lo ≤ j < numWeeks` of the schedule are at their exact fill
targets. -/
def FullRange (cfg : Config) (numWeeks lo : Nat) (sched : Schedule) : Prop :=
  ∀ j, lo ≤ j → j < numWeeks → ∀ g, sched[j]? = some g → fullWeek cfg g

/-- Relation between a phase's input and output states: schedule length kept,
weeks before the current one untouched, cleanliness and preference-respect
preserved. -/
def StIndeps (prefsL : List (String × Prefs)) (idx : Nat) (st st₂ : SState) : Prop :=
  st₂.sched.length = st.sched.length ∧
  (∀ j, j < idx → st₂.sched[j]? = st.sched[j]?) ∧
  (CleanSched st.sched → CleanSched st₂.sched) ∧
  (PrefSched prefsL st.sched → PrefSched prefsL st₂.sched)

/-- Postcondition of one phase: `done` keeps the state relation, `success`
additionally has all weeks from the current one full. -/
def phasePost (cfg : Config) (prefsL : List (String × Prefs)) (numWeeks idx : Nat)
    (st : SState) : PhaseRes → Prop
  | .done st₂ => StIndeps prefsL idx st st₂
  | .success st₂ => StIndeps prefsL idx st st₂ ∧ FullRange cfg numWeeks idx st₂.sched

/-- Postcondition of the recursive call at `idx + 1`. -/
def recPost (cfg : Config) (prefsL : List (String × Prefs)) (numWeeks idx : Nat)
    (recurse : SState → Except PyErr (Bool × SState)) : Prop :=
  ∀ s b s₂, recurse s = .ok (b, s₂) →
    StIndeps prefsL (idx + 1) s s₂ ∧
    (b = true → FullRange cfg numWeeks (idx + 1) s₂.sched)

/-! # Theorems -/

/-- **C2.** The claim says `assign_shifts_backtracker` never raises for any
preference dictionary and week list.  It does: on this four-leader roster
with the identity shuffle outcome, a failed exploration leaves a later week
half-filled, the next visit to that week re-enters the leader loop with the
week already at its targets, and the backtrack branch reads the frame-local
`leader_this_week` before any assignment - an `UnboundLocalError`. -/
theorem C2_backtracker_unbound_local_crash :
    assign_shifts_backtracker cfgCrash prefsCrash ["W1", "W2", "W3"] idOracle =
      .error .unboundLocal := rfl

/-- **C8.** If the roster has fewer leaders than there are weeks, `run`
raises its descriptive `ValueError` precondition before the backtracking
search is entered (for any retry budget and shuffle stream). -/
theorem C8_precondition_rejects_before_search (cfg : Config)
    (prefsL : List (String × Prefs)) (weeks : List String)
    (oracles : Nat → Nat → List (String × Prefs) → List (String × Prefs))
    (fuel : Nat) (h : countLeaders prefsL < weeks.length) :
    run cfg prefsL weeks oracles fuel = .ok (some .precondFailure) := by
  simp [run, h]

/-- Witness for C8 at an empty roster and one week. -/
theorem C8_precondition_rejects_before_search_witness :
    countLeaders [] < ["W1"].length ∧
      run cfgOne [] ["W1"] (fun _ _ l => l) 5 = .ok (some .precondFailure) :=
  ⟨by decide, C8_precondition_rejects_before_search cfgOne [] ["W1"]
    (fun _ _ l => l) 5 (by decide)⟩

/-- **C1.** The claim says the backtrack step removes exactly the one
tentatively added record, restoring the pre-addition state.  It does not:
with candidate preference "s/c" completing the setup group of a week whose
cleanup group already held person "B", a failed recursion pops *both* groups,
removing "B"'s record as well, so the post-undo schedule differs from the
pre-addition one. -/
theorem C1_undo_removes_anothers_record :
    (participantStep cfgPop failRecurse 0 "A" pfPop stPop).map stepSched =
        .ok [⟨[], []⟩] ∧
      stPop.sched = [⟨[], [recB]⟩] ∧ ([⟨[], []⟩] : Schedule) ≠ [⟨[], [recB]⟩] :=
  ⟨rfl, rfl, by decide⟩

/-- **C5 counterexample.** The claim says a candidate placed in a non-leader
capacity is not rejected on account of a maximal leader run.  In `schedRun`,
person "P" (leader run `[0]` at the cap, any-shift trailing run `[3]` not
extending) is pruned by the participants-phase check at week 1 even though
they are not assigned that week, are below the shift cap, and pass the
any-shift run rule - the skip fires on the leader-run rule alone, and the
open setup slot stays unfilled. -/
theorem C5_ordinary_candidate_rejected_by_leader_run :
    candidateSkip cfgRun schedRun 1 "P" = .ok true ∧
      occursInWeek (schedRun.getD 1 ⟨[], []⟩) "P" = false ∧
      (track_person_shifts schedRun).count "P" < cfgRun.MAX_SHIFTS ∧
      seqBlock cfgRun.MAX_CONSECUTIVE_SHIFTS 1
        ((track_person_shifts schedRun).seq "P") = .ok false ∧
      (participantStep cfgRun failRecurse 1 "P" pfP stRun).map stepSched =
        .ok schedRun :=
  ⟨rfl, rfl, by decide, rfl, rfl⟩

/-- For a positive consecutive cap the run test never faults and equals its
Boolean form. -/
theorem seqBlock_eq_runBlocked {maxC : Nat} (h : 1 ≤ maxC) (idx : Int) (s : List Nat) :
    seqBlock maxC idx s = .ok (runBlocked maxC idx s) := by
  cases s with
  | nil =>
    have h0 : ¬ (maxC ≤ 0) := by omega
    simp [seqBlock, runBlocked, h0]
  | cons a l =>
    cases hgl : (a :: l).getLast? with
    | none => simp at hgl
    | some x =>
      have hd : (a :: l).getLastD 0 = x := by
        rw [List.getLastD_eq_getLast?, hgl]; rfl
      by_cases hle : maxC ≤ l.length + 1
      · simp [seqBlock, runBlocked, hgl, hd, hle]
      · simp [seqBlock, runBlocked, hgl, hd, hle]

/-- The pruning check as the five-rule disjunction (shared characterization
of `candidateSkip`). -/
theorem candidateSkip_eq (cfg : Config)
    (sched : Schedule) (idx : Nat) (person : String)
    (h : 1 ≤ cfg.MAX_CONSECUTIVE_SHIFTS) :
    candidateSkip cfg sched idx person =
      .ok (occursInWeek (sched.getD idx ⟨[], []⟩) person ||
        decide (cfg.MAX_SHIFTS ≤ (track_person_shifts sched).count person) ||
        runBlocked cfg.MAX_CONSECUTIVE_SHIFTS idx ((track_person_shifts sched).seq person) ||
        runBlocked cfg.MAX_CONSECUTIVE_SHIFTS idx ((track_person_shifts sched).lseq person) ||
        runBlocked cfg.MAX_CONSECUTIVE_SHIFTS idx ((track_person_shifts sched).sseq person)) := by
  unfold candidateSkip
  simp only [seqBlock_eq_runBlocked h]
  cases h1 : occursInWeek (sched.getD idx ⟨[], []⟩) person <;>
    by_cases h2 : cfg.MAX_SHIFTS ≤ (track_person_shifts sched).count person <;>
      cases h3 : runBlocked cfg.MAX_CONSECUTIVE_SHIFTS idx
          ((track_person_shifts sched).seq person) <;>
        cases h4 : runBlocked cfg.MAX_CONSECUTIVE_SHIFTS idx
            ((track_person_shifts sched).lseq person) <;>
          cases h5 : runBlocked cfg.MAX_CONSECUTIVE_SHIFTS idx
              ((track_person_shifts sched).sseq person) <;>
            simp [h1, h2, h3, h4, h5, Bind.bind, Except.bind, pure, Except.pure]

/-- **C5 amended.** The incremental pruning check rejects a candidate exactly
when one of the five rules fires; the leader-run and shadow-run rules are
applied to every candidate in every phase, regardless of the capacity in
which the candidate would serve. -/
theorem C5_amended_run_rules_apply_to_every_candidate (cfg : Config)
    (sched : Schedule) (idx : Nat) (person : String)
    (h : 1 ≤ cfg.MAX_CONSECUTIVE_SHIFTS) :
    candidateSkip cfg sched idx person =
      .ok (occursInWeek (sched.getD idx ⟨[], []⟩) person ||
        decide (cfg.MAX_SHIFTS ≤ (track_person_shifts sched).count person) ||
        runBlocked cfg.MAX_CONSECUTIVE_SHIFTS idx ((track_person_shifts sched).seq person) ||
        runBlocked cfg.MAX_CONSECUTIVE_SHIFTS idx ((track_person_shifts sched).lseq person) ||
        runBlocked cfg.MAX_CONSECUTIVE_SHIFTS idx ((track_person_shifts sched).sseq person)) :=
  candidateSkip_eq cfg sched idx person h

/-- Witness for the amended C5: the pruning of "P" at week 1 of `schedRun`
is exactly the five-rule disjunction, which here fires on the leader-run
rule. -/
theorem C5_amended_run_rules_apply_to_every_candidate_witness :
    1 ≤ cfgRun.MAX_CONSECUTIVE_SHIFTS ∧
      candidateSkip cfgRun schedRun 1 "P" =
        .ok (occursInWeek (schedRun.getD 1 ⟨[], []⟩) "P" ||
          decide (cfgRun.MAX_SHIFTS ≤ (track_person_shifts schedRun).count "P") ||
          runBlocked cfgRun.MAX_CONSECUTIVE_SHIFTS 1 ((track_person_shifts schedRun).seq "P") ||
          runBlocked cfgRun.MAX_CONSECUTIVE_SHIFTS 1 ((track_person_shifts schedRun).lseq "P") ||
          runBlocked cfgRun.MAX_CONSECUTIVE_SHIFTS 1 ((track_person_shifts schedRun).sseq "P")) :=
  ⟨by decide, C5_amended_run_rules_apply_to_every_candidate cfgRun schedRun 1 "P" (by decide)⟩

/-- A record for a name other than `n` leaves all four tracker entries of `n`
unchanged. -/
theorem trackRecord_ne {w : Nat} {ts : TrackState} {r : Record} {n : String}
    (h : r.name ≠ n) :
    (trackRecord w ts r).count n = ts.count n ∧
    (trackRecord w ts r).seq n = ts.seq n ∧
    (trackRecord w ts r).lseq n = ts.lseq n ∧
    (trackRecord w ts r).sseq n = ts.sseq n := by
  unfold trackRecord
  refine ⟨by simp [Function.update_noteq (Ne.symm h)],
    by simp [Function.update_noteq (Ne.symm h)], ?_, ?_⟩ <;>
    · simp only []
      split <;> simp [Function.update_noteq (Ne.symm h)]

/-- Records all named differently from `n` leave `n`'s tracker entries
unchanged. -/
theorem foldl_trackRecord_ne (w : Nat) {n : String} :
    ∀ (rs : List Record) (ts : TrackState), (∀ r ∈ rs, r.name ≠ n) →
      (rs.foldl (trackRecord w) ts).count n = ts.count n ∧
      (rs.foldl (trackRecord w) ts).seq n = ts.seq n ∧
      (rs.foldl (trackRecord w) ts).lseq n = ts.lseq n ∧
      (rs.foldl (trackRecord w) ts).sseq n = ts.sseq n
  | [], ts, _ => ⟨rfl, rfl, rfl, rfl⟩
  | r :: rs, ts, h => by
    have h1 := @trackRecord_ne w ts r n (h r (List.mem_cons_self r rs))
    have ih := foldl_trackRecord_ne w rs (trackRecord w ts r)
      (fun r' hr' => h r' (List.mem_cons_of_mem _ hr'))
    simp only [List.foldl_cons]
    exact ⟨ih.1.trans h1.1, ih.2.1.trans h1.2.1, ih.2.2.1.trans h1.2.2.1,
      ih.2.2.2.trans h1.2.2.2⟩

/-- Weeks containing no record named `n` leave `n`'s tracker entries
unchanged. -/
theorem foldl_trackWeek_ne {n : String} :
    ∀ (l : List (Nat × Groups)) (ts : TrackState),
      (∀ p ∈ l, ∀ r ∈ p.2.setup ++ p.2.cleanup, r.name ≠ n) →
      (l.foldl trackWeek ts).count n = ts.count n ∧
      (l.foldl trackWeek ts).seq n = ts.seq n ∧
      (l.foldl trackWeek ts).lseq n = ts.lseq n ∧
      (l.foldl trackWeek ts).sseq n = ts.sseq n
  | [], ts, _ => ⟨rfl, rfl, rfl, rfl⟩
  | p :: l, ts, h => by
    have h1 := foldl_trackRecord_ne p.1 (p.2.setup ++ p.2.cleanup) ts
      (h p (List.mem_cons_self p l))
    have ih := foldl_trackWeek_ne l (trackWeek ts p)
      (fun p' hp' => h p' (List.mem_cons_of_mem _ hp'))
    simp only [List.foldl_cons]
    unfold trackWeek
    exact ⟨ih.1.trans h1.1, ih.2.1.trans h1.2.1, ih.2.2.1.trans h1.2.2.1,
      ih.2.2.2.trans h1.2.2.2⟩

/-- A name appears in `schedNames` exactly when some record of some week
bears it. -/
theorem mem_schedNames {sched : Schedule} {n : String} :
    n ∈ schedNames sched ↔ ∃ g ∈ sched, ∃ r ∈ g.setup ++ g.cleanup, r.name = n := by
  induction sched with
  | nil => simp [schedNames]
  | cons g gs ih =>
    simp only [schedNames] at ih ⊢
    simp [ih, List.mem_append, List.mem_map]
    aesop

/-- A name not occurring in the schedule has default tracker entries. -/
theorem track_not_mem {sched : Schedule} {n : String} (h : n ∉ schedNames sched) :
    (track_person_shifts sched).count n = 0 ∧
    (track_person_shifts sched).seq n = [] ∧
    (track_person_shifts sched).lseq n = [] ∧
    (track_person_shifts sched).sseq n = [] := by
  unfold track_person_shifts
  refine foldl_trackWeek_ne sched.enum _ ?_
  intro p hp r hr hn
  apply h
  rw [mem_schedNames]
  refine ⟨p.2, ?_, r, hr, hn⟩
  have h2 := List.mem_enum_iff_getElem?.mp hp
  obtain ⟨hlt, hEq⟩ := List.getElem?_eq_some.mp h2
  exact hEq ▸ List.getElem_mem hlt

/-- **C4 counterexample.** The claim says `is_valid_assignment` returns
`False` whenever some person's longest consecutive run (any shift, or as
leader) exceeds `MAX_CONSECUTIVE_SHIFTS`.  In `schedVal`, person "P" has the
run weeks 0-1 of length 2 with the cap at 1, both as any-shift and as leader,
yet the validator accepts the schedule: the tracker discarded the older run
and only the trailing run `[3]` is checked. -/
theorem C4_validator_misses_interrupted_long_run :
    is_valid_assignment cfgVal schedVal = true ∧
      cfgVal.MAX_CONSECUTIVE_SHIFTS <
        spec_longest_run (occWeeksBy (fun _ => true) schedVal "P") ∧
      cfgVal.MAX_CONSECUTIVE_SHIFTS <
        spec_longest_run (occWeeksBy (·.leaderThisWeek) schedVal "P") :=
  ⟨by decide, by decide, by decide⟩

/-- **C4 amended.** The whole-schedule check rejects a schedule whenever some
person's *trailing* run - the current run as recomputed by
`track_person_shifts`, which discards non-current runs - exceeds
`MAX_CONSECUTIVE_SHIFTS`, for the any-shift, leader, and shadow runs alike;
older runs are not detected. -/
theorem C4_amended_validator_bounds_trailing_runs (cfg : Config)
    (sched : Schedule) (n : String)
    (h : cfg.MAX_CONSECUTIVE_SHIFTS < ((track_person_shifts sched).seq n).length ∨
      cfg.MAX_CONSECUTIVE_SHIFTS < ((track_person_shifts sched).lseq n).length ∨
      cfg.MAX_CONSECUTIVE_SHIFTS < ((track_person_shifts sched).sseq n).length) :
    is_valid_assignment cfg sched = false := by
  cases hb : is_valid_assignment cfg sched with
  | false => rfl
  | true =>
    exfalso
    unfold is_valid_assignment at hb
    simp only [Bool.and_eq_true, List.all_eq_true, decide_eq_true_eq] at hb
    obtain ⟨⟨⟨⟨-, hl⟩, hs⟩, hss⟩, -⟩ := hb
    by_cases hm : n ∈ schedNames sched
    · rcases h with h | h | h
      · exact absurd (hs n hm) (by omega)
      · exact absurd (hl n hm) (by omega)
      · exact absurd (hss n hm) (by omega)
    · obtain ⟨-, h1, h2, h3⟩ := track_not_mem hm
      rcases h with h | h | h <;> simp [h1, h2, h3] at h

/-- Witness for the amended C4: a trailing run of length two with the cap at
one is rejected. -/
theorem C4_amended_validator_bounds_trailing_runs_witness :
    cfgVal.MAX_CONSECUTIVE_SHIFTS < ((track_person_shifts schedTrail).seq "P").length ∧
      is_valid_assignment cfgVal schedTrail = false :=
  ⟨by decide, C4_amended_validator_bounds_trailing_runs cfgVal schedTrail "P"
    (Or.inl (by decide))⟩


/-- The second component of an `enum` entry is a member of the list. -/
theorem enum_snd_mem {α : Type} {l : List α} {p : Nat × α} (hp : p ∈ l.enum) :
    p.2 ∈ l := by
  have h2 := List.mem_enum_iff_getElem?.mp hp
  obtain ⟨hlt, hEq⟩ := List.getElem?_eq_some.mp h2
  exact hEq ▸ List.getElem_mem hlt

/-- `spec_trailing` is empty only for an empty occurrence list. -/
theorem spec_trailing_eq_nil_iff (l : List Nat) : spec_trailing l = [] ↔ l = [] := by
  unfold spec_trailing
  cases hl : l.reverse with
  | nil => simp [List.reverse_eq_nil_iff.mp hl]
  | cons y t =>
    have : l ≠ [] := by
      intro h
      rw [h] at hl
      simp at hl
    simp [this]

/-- The trailing run ends at the last occurrence. -/
theorem spec_trailing_getLast? (l : List Nat) :
    (spec_trailing l).getLast? = l.getLast? := by
  unfold spec_trailing
  cases hl : l.reverse with
  | nil => simp [List.reverse_eq_nil_iff.mp hl]
  | cons y t =>
    have h1 : (y :: consecFrom (y : Int) t).reverse.getLast? = some y := by
      simp [List.getLast?_reverse]
    rw [h1]
    have h2 : l.getLast? = l.reverse.head? := by
      rw [List.head?_reverse]
    rw [h2, hl]
    rfl

/-- Appending one more occurrence extends or restarts the trailing run. -/
theorem spec_trailing_concat (l : List Nat) (w : Nat) :
    spec_trailing (l ++ [w]) =
      match l.getLast? with
      | none => [w]
      | some y => if (y : Int) = (w : Int) - 1 then spec_trailing l ++ [w] else [w] := by
  have hrev : (l ++ [w]).reverse = w :: l.reverse := by simp
  cases hl : l.reverse with
  | nil =>
    have hnil : l = [] := List.reverse_eq_nil_iff.mp hl
    subst hnil
    rfl
  | cons y t =>
    have hlast : l.getLast? = some y := by
      rw [← List.head?_reverse, hl]
      rfl
    rw [hlast]
    unfold spec_trailing
    rw [hrev, hl]
    simp only [consecFrom]
    by_cases hy : (y : Int) = (w : Int) - 1
    · simp [hy]
    · simp [hy]

/-- `spec_trailing_concat` when there is no previous occurrence. -/
theorem spec_trailing_concat_none {l : List Nat} (hl : l.getLast? = none) (w : Nat) :
    spec_trailing (l ++ [w]) = [w] := by
  rw [spec_trailing_concat, hl]

/-- `spec_trailing_concat` with a previous occurrence. -/
theorem spec_trailing_concat_some {l : List Nat} {y : Nat} (hl : l.getLast? = some y)
    (w : Nat) :
    spec_trailing (l ++ [w]) =
      if (y : Int) = (w : Int) - 1 then spec_trailing l ++ [w] else [w] := by
  rw [spec_trailing_concat, hl]

/-- The tracker's per-occurrence update, folded over the occurrence weeks,
computes exactly the trailing run of the spec. -/
theorem foldl_runUpdate_eq_spec_trailing (l : List Nat) :
    l.foldl (fun s w => runUpdate w s) [] = spec_trailing l := by
  induction l using List.reverseRecOn with
  | nil => rfl
  | append_singleton l w ih =>
    rw [List.foldl_append, ih]
    simp only [List.foldl_cons, List.foldl_nil]
    cases hl : l.getLast? with
    | none =>
      have hnil : l = [] :=
        List.getLast?_eq_none_iff.mp hl
      subst hnil
      rfl
    | some y =>
      rw [spec_trailing_concat_some hl]
      have hne : spec_trailing l ≠ [] := by
        rw [Ne, spec_trailing_eq_nil_iff]
        intro h
        rw [h] at hl
        simp at hl
      have hlast : (spec_trailing l).getLastD 0 = y := by
        rw [List.getLastD_eq_getLast?, spec_trailing_getLast?, hl]
        rfl
      unfold runUpdate
      by_cases hy : (y : Int) = (w : Int) - 1
      · have hcond : ¬(0 < (spec_trailing l).length ∧
            ((spec_trailing l).getLastD 0 : Int) ≠ (w : Int) - 1) := by
          push_neg
          intro _
          rw [hlast]
          exact hy
        rw [if_neg hcond, if_pos hy]
      · have hcond : 0 < (spec_trailing l).length ∧
            ((spec_trailing l).getLastD 0 : Int) ≠ (w : Int) - 1 := by
          refine ⟨List.length_pos.mpr hne, ?_⟩
          rw [hlast]
          exact hy
        rw [if_pos hcond, if_neg hy]
        rfl

/-- In a week without duplicated names, at most one record matches a given
name-and-role filter. -/
theorem filter_name_le_one {rs : List Record} {n : String}
    (h : (rs.map Record.name).Nodup) (f : Record → Bool) :
    (rs.filter fun r => decide (r.name = n) && f r).length ≤ 1 := by
  induction rs with
  | nil => simp
  | cons r rs ih =>
    rw [List.map_cons, List.nodup_cons] at h
    by_cases hr : r.name = n
    · have hzero : (rs.filter fun x => decide (x.name = n) && f x) = [] := by
        rw [List.filter_eq_nil_iff]
        intro x hx
        simp only [Bool.and_eq_true, decide_eq_true_eq, not_and]
        intro hxn
        apply absurd ?_ h.1
        rw [hr, ← hxn]
        exact List.mem_map_of_mem Record.name hx
      rw [List.filter_cons]
      split
      · simp [hzero]
      · simp [hzero]
    · rw [List.filter_cons]
      have : (decide (r.name = n) && f r) = false := by simp [hr]
      rw [this]
      simp only [if_neg Bool.false_ne_true]
      exact ih h.2

/-- Records that do not match the name-and-role filter leave the extracted
run map unchanged. -/
theorem foldl_trackRecord_noocc (m : TrackState → String → List Nat)
    (f : Record → Bool)
    (hstep : ∀ (w : Nat) (ts : TrackState) (r : Record) (n : String),
      m (trackRecord w ts r) n =
        if r.name = n ∧ f r = true then runUpdate w (m ts n) else m ts n)
    (w : Nat) (n : String) :
    ∀ (rs : List Record) (ts : TrackState),
      (∀ r ∈ rs, ¬(r.name = n ∧ f r = true)) →
      m (rs.foldl (trackRecord w) ts) n = m ts n
  | [], _, _ => rfl
  | r :: rs, ts, h => by
    simp only [List.foldl_cons]
    rw [foldl_trackRecord_noocc m f hstep w n rs (trackRecord w ts r)
      (fun x hx => h x (List.mem_cons_of_mem _ hx))]
    rw [hstep, if_neg (h r (List.mem_cons_self r rs))]

/-- Per-week effect on a run map: one matching record applies one
`runUpdate`, none leaves it unchanged. -/
theorem foldl_trackRecord_occ (m : TrackState → String → List Nat)
    (f : Record → Bool)
    (hstep : ∀ (w : Nat) (ts : TrackState) (r : Record) (n : String),
      m (trackRecord w ts r) n =
        if r.name = n ∧ f r = true then runUpdate w (m ts n) else m ts n)
    (w : Nat) (n : String) :
    ∀ (rs : List Record) (ts : TrackState),
      ((rs.filter fun r => decide (r.name = n) && f r).length ≤ 1) →
      m (rs.foldl (trackRecord w) ts) n =
        if rs.any (fun r => decide (r.name = n) && f r) then runUpdate w (m ts n)
        else m ts n
  | [], ts, _ => by simp
  | r :: rs, ts, hle => by
    simp only [List.foldl_cons, List.any_cons]
    by_cases hr : r.name = n ∧ f r = true
    · have hhead : (decide (r.name = n) && f r) = true := by
        simp [hr.1, hr.2]
      have hzero : (rs.filter fun x => decide (x.name = n) && f x) = [] := by
        rw [List.filter_cons, hhead, if_pos rfl] at hle
        simp only [List.length_cons] at hle
        exact List.length_eq_zero.mp (by omega)
      have hno : ∀ x ∈ rs, ¬(x.name = n ∧ f x = true) := by
        intro x hx hand
        have : x ∈ (rs.filter fun y => decide (y.name = n) && f y) :=
          List.mem_filter.mpr ⟨hx, by simp [hand.1, hand.2]⟩
        rw [hzero] at this
        exact absurd this (List.not_mem_nil x)
      rw [foldl_trackRecord_noocc m f hstep w n rs (trackRecord w ts r) hno]
      rw [hstep, if_pos hr]
      simp [hhead]
    · have hhead : (decide (r.name = n) && f r) = false := by
        rcases Classical.em (r.name = n) with he | he
        · have : f r = false := by
            cases hf : f r
            · rfl
            · exact absurd ⟨he, hf⟩ hr
          simp [this]
        · simp [he]
      have hle2 : ((rs.filter fun x => decide (x.name = n) && f x).length ≤ 1) := by
        rw [List.filter_cons, hhead] at hle
        simpa using hle
      have ih := foldl_trackRecord_occ m f hstep w n rs (trackRecord w ts r) hle2
      rw [ih, hstep, if_neg hr]
      simp [hhead]

/-- The week fold applies one `runUpdate` per occurrence week. -/
theorem foldl_trackWeek_occ (m : TrackState → String → List Nat)
    (f : Record → Bool)
    (hstep : ∀ (w : Nat) (ts : TrackState) (r : Record) (n : String),
      m (trackRecord w ts r) n =
        if r.name = n ∧ f r = true then runUpdate w (m ts n) else m ts n)
    (n : String) :
    ∀ (l : List (Nat × Groups)) (ts : TrackState),
      (∀ p ∈ l,
        (((p.2.setup ++ p.2.cleanup).filter fun r => decide (r.name = n) && f r).length ≤ 1)) →
      m (l.foldl trackWeek ts) n =
        (occWeeksFrom f n l).foldl (fun s w => runUpdate w s) (m ts n)
  | [], _, _ => rfl
  | p :: l, ts, h => by
    simp only [List.foldl_cons, occWeeksFrom]
    have h1 := foldl_trackRecord_occ m f hstep p.1 n (p.2.setup ++ p.2.cleanup) ts
      (h p (List.mem_cons_self p l))
    have ih := foldl_trackWeek_occ m f hstep n l (trackWeek ts p)
      (fun q hq => h q (List.mem_cons_of_mem _ hq))
    rw [ih]
    unfold trackWeek
    rw [h1]
    by_cases hany : (p.2.setup ++ p.2.cleanup).any (fun r => decide (r.name = n) && f r)
    · rw [if_pos hany, if_pos hany]
      rfl
    · rw [if_neg hany, if_neg hany]
      rfl

/-- Step behaviour of the any-shift run map. -/
theorem track_seq_step (w : Nat) (ts : TrackState) (r : Record) (n : String) :
    (trackRecord w ts r).seq n =
      if r.name = n ∧ (fun _ : Record => true) r = true then runUpdate w (ts.seq n)
      else ts.seq n := by
  unfold trackRecord
  by_cases h : r.name = n
  · subst h
    simp [Function.update_same]
  · simp [Function.update_noteq (Ne.symm h), h]

/-- Step behaviour of the leader run map. -/
theorem track_lseq_step (w : Nat) (ts : TrackState) (r : Record) (n : String) :
    (trackRecord w ts r).lseq n =
      if r.name = n ∧ Record.leaderThisWeek r = true then runUpdate w (ts.lseq n)
      else ts.lseq n := by
  unfold trackRecord
  by_cases hl : r.leaderThisWeek
  · by_cases h : r.name = n
    · subst h
      simp [Function.update_same, hl]
    · simp [Function.update_noteq (Ne.symm h), h, hl]
  · simp [hl]

/-- Step behaviour of the shadow run map. -/
theorem track_sseq_step (w : Nat) (ts : TrackState) (r : Record) (n : String) :
    (trackRecord w ts r).sseq n =
      if r.name = n ∧ Record.shadowThisWeek r = true then runUpdate w (ts.sseq n)
      else ts.sseq n := by
  unfold trackRecord
  by_cases hl : r.shadowThisWeek
  · by_cases h : r.name = n
    · subst h
      simp [Function.update_same, hl]
    · simp [Function.update_noteq (Ne.symm h), h, hl]
  · simp [hl]

/-- Step behaviour of the total count map. -/
theorem track_count_step (w : Nat) (ts : TrackState) (r : Record) (n : String) :
    (trackRecord w ts r).count n =
      ts.count n + (if r.name = n then 1 else 0) := by
  unfold trackRecord
  by_cases h : r.name = n
  · subst h
    simp [Function.update_same]
  · simp [Function.update_noteq (Ne.symm h), h]

/-- The record fold adds one to the count per record bearing the name. -/
theorem foldl_trackRecord_count (w : Nat) (n : String) :
    ∀ (rs : List Record) (ts : TrackState),
      (rs.foldl (trackRecord w) ts).count n =
        ts.count n + (rs.filter fun r => decide (r.name = n)).length
  | [], _ => by simp
  | r :: rs, ts => by
    simp only [List.foldl_cons, List.filter_cons]
    rw [foldl_trackRecord_count w n rs (trackRecord w ts r), track_count_step]
    by_cases h : r.name = n
    · simp [h]
      omega
    · simp [h]

/-- The week fold totals the per-week record counts. -/
theorem foldl_trackWeek_count (n : String) :
    ∀ (l : List (Nat × Groups)) (ts : TrackState),
      (l.foldl trackWeek ts).count n =
        ts.count n +
          (l.map fun p =>
            ((p.2.setup ++ p.2.cleanup).filter fun r => decide (r.name = n)).length).sum
  | [], _ => by simp
  | p :: l, ts => by
    simp only [List.foldl_cons, List.map_cons, List.sum_cons]
    rw [foldl_trackWeek_count n l (trackWeek ts p)]
    unfold trackWeek
    rw [foldl_trackRecord_count]
    omega

/-- **C6.** On any schedule of the data model (no person twice in a week),
`track_person_shifts` returns, for each person: a total count equal to the
number of records bearing the name across all weeks and both groups, and
any-shift, leader and shadow run sequences each equal to the maximal trailing
block of strictly consecutive occurrence weeks of the corresponding role,
older runs discarded.  The embedding is purely functional, so the input
schedule is not modified. -/
theorem C6_tracker_counts_and_trailing_runs (sched : Schedule)
    (hclean : ∀ g ∈ sched, weekClean g) (n : String) :
    (track_person_shifts sched).count n = countRecords sched n ∧
    (track_person_shifts sched).seq n =
      spec_trailing (occWeeksBy (fun _ => true) sched n) ∧
    (track_person_shifts sched).lseq n =
      spec_trailing (occWeeksBy (·.leaderThisWeek) sched n) ∧
    (track_person_shifts sched).sseq n =
      spec_trailing (occWeeksBy (·.shadowThisWeek) sched n) := by
  have hcond : ∀ (f : Record → Bool), ∀ p ∈ sched.enum,
      (((p.2.setup ++ p.2.cleanup).filter fun r => decide (r.name = n) && f r).length ≤ 1) :=
    fun f p hp => filter_name_le_one (hclean p.2 (enum_snd_mem hp)) f
  refine ⟨?_, ?_, ?_, ?_⟩
  · unfold track_person_shifts countRecords
    rw [foldl_trackWeek_count]
    have hbridge :
        (sched.enum.map fun p =>
          ((p.2.setup ++ p.2.cleanup).filter fun r => decide (r.name = n)).length) =
        sched.map fun g =>
          ((g.setup ++ g.cleanup).filter fun r => decide (r.name = n)).length := by
      rw [show (fun p : Nat × Groups =>
          ((p.2.setup ++ p.2.cleanup).filter fun r => decide (r.name = n)).length) =
          (fun g : Groups =>
            ((g.setup ++ g.cleanup).filter fun r => decide (r.name = n)).length) ∘ Prod.snd
        from rfl]
      rw [← List.map_map, List.enum_map_snd]
    rw [hbridge]
    simp
  · unfold track_person_shifts occWeeksBy
    rw [foldl_trackWeek_occ TrackState.seq (fun _ => true) track_seq_step n sched.enum _
      (hcond (fun _ => true))]
    exact foldl_runUpdate_eq_spec_trailing _
  · unfold track_person_shifts occWeeksBy
    rw [foldl_trackWeek_occ TrackState.lseq (·.leaderThisWeek) track_lseq_step n sched.enum _
      (hcond (·.leaderThisWeek))]
    exact foldl_runUpdate_eq_spec_trailing _
  · unfold track_person_shifts occWeeksBy
    rw [foldl_trackWeek_occ TrackState.sseq (·.shadowThisWeek) track_sseq_step n sched.enum _
      (hcond (·.shadowThisWeek))]
    exact foldl_runUpdate_eq_spec_trailing _

/-- Witness for C6 at `schedVal` and person "P". -/
theorem C6_tracker_counts_and_trailing_runs_witness :
    (∀ g ∈ schedVal, weekClean g) ∧
      ((track_person_shifts schedVal).count "P" = countRecords schedVal "P" ∧
        (track_person_shifts schedVal).seq "P" =
          spec_trailing (occWeeksBy (fun _ => true) schedVal "P") ∧
        (track_person_shifts schedVal).lseq "P" =
          spec_trailing (occWeeksBy (·.leaderThisWeek) schedVal "P") ∧
        (track_person_shifts schedVal).sseq "P" =
          spec_trailing (occWeeksBy (·.shadowThisWeek) schedVal "P")) :=
  ⟨by decide, C6_tracker_counts_and_trailing_runs schedVal (by decide) "P"⟩


/-- `stableInsert` only rearranges: members come from the inserted element or the list. -/
theorem mem_stableInsert {α : Type} (key : α → Nat) (x y : α) :
    ∀ (l : List α), y ∈ stableInsert key x l → y = x ∨ y ∈ l
  | [], h => by simpa [stableInsert] using h
  | z :: zs, h => by
    unfold stableInsert at h
    split at h
    · rcases List.mem_cons.mp h with h | h
      · exact Or.inr (h ▸ List.mem_cons_self z zs)
      · rcases mem_stableInsert key x y zs h with h | h
        · exact Or.inl h
        · exact Or.inr (List.mem_cons_of_mem z h)
    · rcases List.mem_cons.mp h with h | h
      · exact Or.inl h
      · exact Or.inr h

/-- Fold form of `stableSortBy` membership. -/
theorem mem_stableSortBy {α : Type} (key : α → Nat) {y : α} :
    ∀ (l : List α) (acc : List α),
      y ∈ l.foldl (fun acc x => stableInsert key x acc) acc → y ∈ acc ∨ y ∈ l
  | [], acc, h => Or.inl h
  | x :: xs, acc, h => by
    simp only [List.foldl_cons] at h
    rcases mem_stableSortBy key xs (stableInsert key x acc) h with h | h
    · rcases mem_stableInsert key x y acc h with h | h
      · exact Or.inr (h ▸ List.mem_cons_self x xs)
      · exact Or.inl h
    · exact Or.inr (List.mem_cons_of_mem x h)

/-- `stableSortBy` introduces no new elements. -/
theorem mem_of_mem_stableSortBy {α : Type} {key : α → Nat} {y : α} {l : List α}
    (h : y ∈ stableSortBy key l) : y ∈ l := by
  rcases mem_stableSortBy key l [] h with h | h
  · exact absurd h (List.not_mem_nil y)
  · exact h

/-- Under `NoCleanup` the current week's cleanup group is empty. -/
theorem NoCleanup_cleanup_getD {st : SState} (h : NoCleanup st) (idx : Nat) :
    (getWeek st idx).cleanup = [] := by
  unfold getWeek
  by_cases hlt : idx < st.sched.length
  · rw [List.getD_eq_getElem st.sched _ hlt]
    exact h _ (List.getElem_mem hlt)
  · rw [List.getD_eq_default st.sched _ (Nat.le_of_not_lt hlt)]

/-- Replacing a setup group preserves `NoCleanup`. -/
theorem NoCleanup_updSetup {st : SState} {idx : Nat} {v : List Record}
    (h : NoCleanup st) :
    NoCleanup (updWeek st idx fun g => { g with setup := v }) := by
  intro g hg
  unfold updWeek at hg
  simp only at hg
  rcases List.mem_or_eq_of_mem_set hg with h1 | h1
  · exact h g h1
  · subst h1
    exact NoCleanup_cleanup_getD h idx



/-- With a positive consecutive cap the pruning check cannot fault. -/
theorem candidateSkip_isOk (cfg : Config) (sched : Schedule) (idx : Nat)
    (person : String) (hM : 1 ≤ cfg.MAX_CONSECUTIVE_SHIFTS) :
    ∃ b, candidateSkip cfg sched idx person = .ok b :=
  ⟨_, candidateSkip_eq cfg sched idx person hM⟩

/-- A week update that keeps the cleanup group preserves `NoCleanup`. -/
theorem NoCleanup_updWeek_setup {st : SState} {idx : Nat} {f : Groups → Groups}
    (hf : ∀ g, (f g).cleanup = g.cleanup) (h : NoCleanup st) :
    NoCleanup (updWeek st idx f) := by
  intro g hg
  unfold updWeek at hg
  simp only at hg
  rcases List.mem_or_eq_of_mem_set hg with h1 | h1
  · exact h g h1
  · subst h1
    rw [hf]
    exact NoCleanup_cleanup_getD h idx

/-- Bind of a successful `Except`. -/
theorem ok_bind {ε α β : Type} (a : α) (f : α → Except ε β) :
    (Except.ok a : Except ε α) >>= f = f a := rfl

/-- With nobody able to serve cleanup and `MIN_CLEANUP` positive, the leader
loop performs no recursion and completes with all cleanup groups still
empty. -/
theorem leaderPhase_noC (cfg : Config) (prefsL : List (String × Prefs))
    (recurse : SState → Except PyErr (Bool × SState)) (idx : Nat)
    (hM : 1 ≤ cfg.MAX_CONSECUTIVE_SHIFTS) (hmc : 1 ≤ cfg.MIN_CLEANUP)
    (hpref : ∀ p ∈ prefsL, p.2.preference ≠ "c" ∧ p.2.preference ≠ "s/c") :
    ∀ (cands : List (String × Prefs)) (st : SState) (remS remC : Nat)
      (ltw : Option Bool),
      (∀ c ∈ cands, c ∈ prefsL) → NoCleanup st →
      ∃ st₂, leaderPhase cfg recurse idx cands st remS remC ltw = .ok (.done st₂) ∧
        NoCleanup st₂
  | [], st, remS, remC, ltw, _, hst => ⟨st, rfl, hst⟩
  | (person, pf) :: rest, st, remS, remC, ltw, hc, hst => by
    have hpf := hpref (person, pf) (hc _ (List.mem_cons_self _ _))
    obtain ⟨b, hskip⟩ := candidateSkip_isOk cfg st.sched idx person hM
    have hcrest : ∀ c ∈ rest, c ∈ prefsL :=
      fun c hcm => hc c (List.mem_cons_of_mem _ hcm)
    have hfull : ¬((getWeek st idx).setup.length = cfg.MIN_SETUP ∧
        (getWeek st idx).cleanup.length = cfg.MIN_CLEANUP) := by
      rw [NoCleanup_cleanup_getD hst]
      intro hand
      have := hand.2
      simp at this
      omega
    have hg2 : ((pf.preference = "c" || pf.preference = "s/c") &&
        decide ((getWeek st idx).cleanup.length < cfg.MIN_CLEANUP) && pf.leader &&
        decide (0 < remC)) = false := by
      simp [hpf.1, hpf.2]
    simp only [leaderPhase, hskip, ok_bind]
    cases b with
    | true =>
      rw [if_pos rfl]
      exact leaderPhase_noC cfg prefsL recurse idx hM hmc hpref rest st remS remC ltw
        hcrest hst
    | false =>
      rw [if_neg Bool.false_ne_true]
      by_cases hg1 : ((pf.preference = "s" || pf.preference = "s/c") &&
          decide ((getWeek st idx).setup.length < cfg.MIN_SETUP) && pf.leader &&
          decide (0 < remS)) = true
      · rw [if_pos hg1]
        refine leaderPhase_noC cfg prefsL recurse idx hM hmc hpref rest _ _ _ _ hcrest ?_
        intro g hg
        exact NoCleanup_updWeek_setup
          (f := fun g => { g with setup := g.setup ++
            [⟨person, pf.leader, pf.shadow, false, true⟩] })
          (fun _ => rfl) hst g hg
      · rw [if_neg hg1, hg2, if_neg Bool.false_ne_true, if_neg hfull]
        exact leaderPhase_noC cfg prefsL recurse idx hM hmc hpref rest st remS remC ltw
          hcrest hst

/-- Shadow-loop analogue of `leaderPhase_noC`. -/
theorem shadowPhase_noC (cfg : Config) (prefsL : List (String × Prefs))
    (recurse : SState → Except PyErr (Bool × SState)) (idx : Nat)
    (hM : 1 ≤ cfg.MAX_CONSECUTIVE_SHIFTS) (hmc : 1 ≤ cfg.MIN_CLEANUP)
    (hpref : ∀ p ∈ prefsL, p.2.preference ≠ "c" ∧ p.2.preference ≠ "s/c") :
    ∀ (cands : List (String × Prefs)) (st : SState) (remS remC : Nat),
      (∀ c ∈ cands, c ∈ prefsL) → NoCleanup st →
      ∃ st₂, shadowPhase cfg recurse idx cands st remS remC = .ok (.done st₂) ∧
        NoCleanup st₂
  | [], st, remS, remC, _, hst => ⟨st, rfl, hst⟩
  | (person, pf) :: rest, st, remS, remC, hc, hst => by
    have hpf := hpref (person, pf) (hc _ (List.mem_cons_self _ _))
    obtain ⟨b, hskip⟩ := candidateSkip_isOk cfg st.sched idx person hM
    have hcrest : ∀ c ∈ rest, c ∈ prefsL :=
      fun c hcm => hc c (List.mem_cons_of_mem _ hcm)
    have hfull : ¬((getWeek st idx).setup.length = cfg.MIN_SETUP ∧
        (getWeek st idx).cleanup.length = cfg.MIN_CLEANUP) := by
      rw [NoCleanup_cleanup_getD hst]
      intro hand
      have := hand.2
      simp at this
      omega
    have hg2 : ((pf.preference = "c" || pf.preference = "s/c") &&
        decide ((getWeek st idx).cleanup.length < cfg.MIN_CLEANUP) && pf.shadow &&
        decide (0 < remC)) = false := by
      simp [hpf.1, hpf.2]
    by_cases hbreak : remS = 0 ∧ remC = 0
    · exact ⟨st, by simp only [shadowPhase, if_pos hbreak], hst⟩
    · simp only [shadowPhase, if_neg hbreak, hskip, ok_bind]
      cases b with
      | true =>
        rw [if_pos rfl]
        exact shadowPhase_noC cfg prefsL recurse idx hM hmc hpref rest st remS remC
          hcrest hst
      | false =>
        rw [if_neg Bool.false_ne_true]
        by_cases hg1 : ((pf.preference = "s" || pf.preference = "s/c") &&
            decide ((getWeek st idx).setup.length < cfg.MIN_SETUP) && pf.shadow &&
            decide (0 < remS)) = true
        · rw [if_pos hg1]
          refine shadowPhase_noC cfg prefsL recurse idx hM hmc hpref rest _ _ _
            hcrest ?_
          intro g hg
          exact NoCleanup_updWeek_setup
            (f := fun g => { g with setup := g.setup ++
              [⟨person, false, pf.shadow, true, false⟩] })
            (fun _ => rfl) hst g hg
        · rw [if_neg hg1, hg2, if_neg Bool.false_ne_true, if_neg hfull]
          exact shadowPhase_noC cfg prefsL recurse idx hM hmc hpref rest st remS remC
            hcrest hst

/-- Participant-step analogue: no recursion, cleanup groups stay empty. -/
theorem participantStep_noC (cfg : Config) (prefsL : List (String × Prefs))
    (recurse : SState → Except PyErr (Bool × SState)) (idx : Nat)
    (hM : 1 ≤ cfg.MAX_CONSECUTIVE_SHIFTS) (hmc : 1 ≤ cfg.MIN_CLEANUP)
    (hpref : ∀ p ∈ prefsL, p.2.preference ≠ "c" ∧ p.2.preference ≠ "s/c")
    (person : String) (pf : Prefs) (st : SState)
    (hcp : (person, pf) ∈ prefsL) (hst : NoCleanup st) :
    ∃ st', participantStep cfg recurse idx person pf st = .ok (.next st') ∧
      NoCleanup st' := by
  have hpf := hpref (person, pf) hcp
  obtain ⟨b, hskip⟩ := candidateSkip_isOk cfg st.sched idx person hM
  have hg2 : ((pf.preference = "c" || pf.preference = "s/c") &&
      decide ((getWeek st idx).cleanup.length < cfg.MIN_CLEANUP)) = false := by
    simp [hpf.1, hpf.2]
  simp only [participantStep, hskip, ok_bind]
  cases b with
  | true =>
    rw [if_pos rfl]
    exact ⟨st, rfl, hst⟩
  | false =>
    rw [if_neg Bool.false_ne_true]
    by_cases hg1 : ((pf.preference = "s" || pf.preference = "s/c") &&
        decide ((getWeek st idx).setup.length < cfg.MIN_SETUP)) = true
    · rw [if_pos hg1]
      have hst1 : NoCleanup (updWeek st idx fun g =>
          { g with setup := g.setup ++ [⟨person, pf.leader, pf.shadow, false, false⟩] }) := by
        intro g hg
        exact NoCleanup_updWeek_setup
          (f := fun g => { g with setup := g.setup ++
            [⟨person, pf.leader, pf.shadow, false, false⟩] })
          (fun _ => rfl) hst g hg
      have hfull : ¬((getWeek (updWeek st idx fun g =>
          { g with setup := g.setup ++ [⟨person, pf.leader, pf.shadow, false, false⟩] }) idx).setup.length = cfg.MIN_SETUP ∧
          (getWeek (updWeek st idx fun g =>
          { g with setup := g.setup ++ [⟨person, pf.leader, pf.shadow, false, false⟩] }) idx).cleanup.length = cfg.MIN_CLEANUP) := by
        rw [NoCleanup_cleanup_getD hst1]
        intro hand
        have := hand.2
        simp at this
        omega
      rw [if_neg hfull]
      exact ⟨_, rfl, hst1⟩
    · rw [if_neg hg1, hg2, if_neg Bool.false_ne_true]
      have hfull : ¬((getWeek st idx).setup.length = cfg.MIN_SETUP ∧
          (getWeek st idx).cleanup.length = cfg.MIN_CLEANUP) := by
        rw [NoCleanup_cleanup_getD hst]
        intro hand
        have := hand.2
        simp at this
        omega
      rw [if_neg hfull]
      exact ⟨st, rfl, hst⟩

/-- Participant-loop analogue of `leaderPhase_noC`. -/
theorem participantsPhase_noC (cfg : Config) (prefsL : List (String × Prefs))
    (recurse : SState → Except PyErr (Bool × SState)) (idx : Nat)
    (hM : 1 ≤ cfg.MAX_CONSECUTIVE_SHIFTS) (hmc : 1 ≤ cfg.MIN_CLEANUP)
    (hpref : ∀ p ∈ prefsL, p.2.preference ≠ "c" ∧ p.2.preference ≠ "s/c") :
    ∀ (cands : List (String × Prefs)) (st : SState),
      (∀ c ∈ cands, c ∈ prefsL) → NoCleanup st →
      ∃ st₂, participantsPhase cfg recurse idx cands st = .ok (.done st₂) ∧
        NoCleanup st₂
  | [], st, _, hst => ⟨st, rfl, hst⟩
  | (person, pf) :: rest, st, hc, hst => by
    obtain ⟨st', hstep, hst'⟩ := participantStep_noC cfg prefsL recurse idx hM hmc hpref
      person pf st (hc _ (List.mem_cons_self _ _)) hst
    simp only [participantsPhase, hstep, ok_bind]
    exact participantsPhase_noC cfg prefsL recurse idx hM hmc hpref rest st'
      (fun c hcm => hc c (List.mem_cons_of_mem _ hcm)) hst'

/-- With nobody able to serve cleanup, every call of the helper below the
terminal index fails, leaving all cleanup groups empty. -/
theorem backtracking_helper_noC (cfg : Config) (prefsL : List (String × Prefs))
    (numWeeks : Nat)
    (oracle : Nat → List (String × Prefs) → List (String × Prefs))
    (hM : 1 ≤ cfg.MAX_CONSECUTIVE_SHIFTS) (hmc : 1 ≤ cfg.MIN_CLEANUP)
    (hpref : ∀ p ∈ prefsL, p.2.preference ≠ "c" ∧ p.2.preference ≠ "s/c")
    (hO : ∀ k l x, x ∈ oracle k l → x ∈ l) :
    ∀ (fuel idx : Nat) (st : SState), idx ≠ numWeeks → NoCleanup st →
      ∃ st', backtracking_helper cfg prefsL numWeeks oracle fuel idx st =
        .ok (false, st') ∧ NoCleanup st' := by
  intro fuel idx st hidx hst
  cases fuel with
  | zero => exact ⟨st, rfl, hst⟩
  | succ f =>
    have hmem : ∀ c ∈ oracle st.ctr prefsL, c ∈ prefsL := fun c hcm => hO _ _ _ hcm
    obtain ⟨st₂, hl, hst₂⟩ := leaderPhase_noC cfg prefsL
      (fun s => backtracking_helper cfg prefsL numWeeks oracle f (idx + 1) s) idx
      hM hmc hpref
      (stableSortBy (fun p => countName { st with ctr := st.ctr + 1 }.sched p.1)
        ((oracle st.ctr prefsL).filter fun p => p.2.leader))
      { st with ctr := st.ctr + 1 } cfg.NUM_SETUP_LEADERS cfg.NUM_CLEANUP_LEADERS none
      (fun c hcm => hmem c (List.mem_filter.mp (mem_of_mem_stableSortBy hcm)).1)
      hst
    obtain ⟨st₃, hs, hst₃⟩ := shadowPhase_noC cfg prefsL
      (fun s => backtracking_helper cfg prefsL numWeeks oracle f (idx + 1) s) idx
      hM hmc hpref
      (stableSortBy (fun p => countName st₂.sched p.1)
        ((oracle st.ctr prefsL).filter fun p => p.2.shadow && !p.2.leader))
      st₂ cfg.NUM_SETUP_SHADOWS cfg.NUM_CLEANUP_SHADOWS
      (fun c hcm => hmem c (List.mem_filter.mp (mem_of_mem_stableSortBy hcm)).1)
      hst₂
    obtain ⟨st₄, hp, hst₄⟩ := participantsPhase_noC cfg prefsL
      (fun s => backtracking_helper cfg prefsL numWeeks oracle f (idx + 1) s) idx
      hM hmc hpref
      (stableSortBy (fun p => countName st₃.sched p.1) (oracle st.ctr prefsL))
      st₃
      (fun c hcm => hmem c (mem_of_mem_stableSortBy hcm))
      hst₃
    refine ⟨st₄, ?_, hst₄⟩
    simp only [backtracking_helper, if_neg hidx, hl, ok_bind, hs, hp]

/-- On such an infeasible roster the backtracker returns `None`, for every
shuffle stream. -/
theorem backtracker_noC (cfg : Config) (prefsL : List (String × Prefs))
    (weeks : List String)
    (oracle : Nat → List (String × Prefs) → List (String × Prefs))
    (hW : weeks ≠ [])
    (hM : 1 ≤ cfg.MAX_CONSECUTIVE_SHIFTS) (hmc : 1 ≤ cfg.MIN_CLEANUP)
    (hpref : ∀ p ∈ prefsL, p.2.preference ≠ "c" ∧ p.2.preference ≠ "s/c")
    (hO : ∀ k l x, x ∈ oracle k l → x ∈ l) :
    assign_shifts_backtracker cfg prefsL weeks oracle = .ok none := by
  have hidx : 0 ≠ weeks.length := by
    intro h
    exact hW (List.length_eq_zero.mp h.symm)
  have hst0 : NoCleanup
      ⟨List.replicate weeks.length ⟨[], []⟩, fun _ => [], fun _ => [], 0⟩ := by
    intro g hg
    rw [List.eq_of_mem_replicate hg]
  obtain ⟨st', hh, -⟩ := backtracking_helper_noC cfg prefsL weeks.length oracle
    hM hmc hpref hO (weeks.length + 1) 0
    ⟨List.replicate weeks.length ⟨[], []⟩, fun _ => [], fun _ => [], 0⟩ hidx hst0
  simp only [assign_shifts_backtracker, hh, ok_bind]
  rfl

/-- Hence the driver's retry loop never exits, no matter how many retries
are observed. -/
theorem runRetries_noC (cfg : Config) (prefsL : List (String × Prefs))
    (weeks : List String)
    (oracles : Nat → Nat → List (String × Prefs) → List (String × Prefs))
    (hW : weeks ≠ [])
    (hM : 1 ≤ cfg.MAX_CONSECUTIVE_SHIFTS) (hmc : 1 ≤ cfg.MIN_CLEANUP)
    (hpref : ∀ p ∈ prefsL, p.2.preference ≠ "c" ∧ p.2.preference ≠ "s/c")
    (hO : ∀ k j l x, x ∈ oracles k j l → x ∈ l) :
    ∀ (fuel k : Nat), runRetries cfg prefsL weeks oracles fuel k = .ok none
  | 0, _ => rfl
  | fuel + 1, k => by
    have hb := backtracker_noC cfg prefsL weeks (oracles k) hW hM hmc hpref (hO k)
    simp only [runRetries, hb, ok_bind]
    exact runRetries_noC cfg prefsL weeks oracles hW hM hmc hpref hO fuel (k + 1)

/-- **C3.** The claim says the driver terminates and reports Infeasible when
the search finds no schedule.  It does not: on an infeasible input passing
the leader-count precondition (here: nobody can serve cleanup while
`MIN_CLEANUP` is positive), every call to the backtracker returns `None` and
the `while assignment_dict is None` loop re-enters the search - after any
number `fuel` of retries the driver still has produced no outcome. -/
theorem C3_driver_retries_forever_on_infeasible_input (cfg : Config)
    (prefsL : List (String × Prefs)) (weeks : List String)
    (oracles : Nat → Nat → List (String × Prefs) → List (String × Prefs))
    (hW : weeks ≠ []) (hL : weeks.length ≤ countLeaders prefsL)
    (hM : 1 ≤ cfg.MAX_CONSECUTIVE_SHIFTS) (hmc : 1 ≤ cfg.MIN_CLEANUP)
    (hpref : ∀ p ∈ prefsL, p.2.preference ≠ "c" ∧ p.2.preference ≠ "s/c")
    (hO : ∀ k j l x, x ∈ oracles k j l → x ∈ l) (fuel : Nat) :
    run cfg prefsL weeks oracles fuel = .ok none := by
  unfold run
  rw [if_neg (by omega : ¬ countLeaders prefsL < weeks.length)]
  exact runRetries_noC cfg prefsL weeks oracles hW hM hmc hpref hO fuel 0

/-- Witness for C3 at the concrete one-week infeasible instance. -/
theorem C3_driver_retries_forever_on_infeasible_input_witness :
    (["W1"] : List String) ≠ [] ∧ (["W1"] : List String).length ≤ countLeaders prefsInf ∧
      run cfgInf prefsInf ["W1"] (fun _ _ l => l) 3 = .ok none :=
  ⟨by decide, by decide,
    C3_driver_retries_forever_on_infeasible_input cfgInf prefsInf ["W1"]
      (fun _ _ l => l) (by decide) (by decide) (by decide) (by decide) (by decide)
      (fun _ _ _ _ h => h) 3⟩

theorem updWeek_sched_length (st : SState) (idx : Nat) (f : Groups → Groups) :
    (updWeek st idx f).sched.length = st.sched.length := by
  unfold updWeek
  simp

theorem updWeek_sched_ne (st : SState) (idx : Nat) (f : Groups → Groups)
    {j : Nat} (h : j ≠ idx) : (updWeek st idx f).sched[j]? = st.sched[j]? := by
  unfold updWeek
  exact List.getElem?_set_ne (Ne.symm h)

theorem StIndeps_refl (prefsL : List (String × Prefs)) (idx : Nat) (st : SState) :
    StIndeps prefsL idx st st :=
  ⟨rfl, fun _ _ => rfl, id, id⟩

theorem StIndeps_trans {prefsL : List (String × Prefs)} {idx : Nat}
    {st₁ st₂ st₃ : SState} (h1 : StIndeps prefsL idx st₁ st₂)
    (h2 : StIndeps prefsL idx st₂ st₃) : StIndeps prefsL idx st₁ st₃ :=
  ⟨h2.1.trans h1.1, fun j hj => (h2.2.1 j hj).trans (h1.2.1 j hj),
    fun hc => h2.2.2.1 (h1.2.2.1 hc), fun hp => h2.2.2.2 (h1.2.2.2 hp)⟩

theorem StIndeps_mono {prefsL : List (String × Prefs)} {idx idx' : Nat}
    {st st₂ : SState} (hle : idx ≤ idx') (h : StIndeps prefsL idx' st st₂) :
    StIndeps prefsL idx st st₂ :=
  ⟨h.1, fun j hj => h.2.1 j (lt_of_lt_of_le hj hle), h.2.2.1, h.2.2.2⟩

theorem StIndeps_ctr (prefsL : List (String × Prefs)) (idx : Nat) (st : SState)
    (k : Nat) : StIndeps prefsL idx st { st with ctr := k } :=
  ⟨rfl, fun _ _ => rfl, id, id⟩

theorem occursInWeek_false_notin {g : Groups} {n : String}
    (h : occursInWeek g n = false) :
    n ∉ (g.setup ++ g.cleanup).map Record.name := by
  unfold occursInWeek at h
  rw [List.any_eq_false] at h
  intro hm
  obtain ⟨r, hr, hrn⟩ := List.mem_map.mp hm
  exact absurd hrn (by simpa using h r hr)

theorem weekClean_of_sublists {g g' : Groups} (hs : List.Sublist g'.setup g.setup)
    (hc2 : List.Sublist g'.cleanup g.cleanup) (h : weekClean g) : weekClean g' :=
  h.sublist ((hs.append hc2).map Record.name)

theorem weekClean_append_setup {g : Groups} {r : Record} (h : weekClean g)
    (hocc : occursInWeek g r.name = false) :
    weekClean { g with setup := g.setup ++ [r] } := by
  show (List.map Record.name ((g.setup ++ [r]) ++ g.cleanup)).Nodup
  have hperm : ((g.setup ++ [r]) ++ g.cleanup).Perm ((g.setup ++ g.cleanup) ++ [r]) := by
    have h1 : ([r] ++ g.cleanup).Perm (g.cleanup ++ [r]) := List.perm_append_comm
    have h2 := h1.append_left g.setup
    simpa [List.append_assoc] using h2
  refine ((hperm.map Record.name).nodup_iff).mpr ?_
  rw [List.map_append, List.nodup_append]
  refine ⟨h, List.nodup_singleton r.name, ?_⟩
  intro x hx hxr
  simp only [List.map_cons, List.map_nil, List.mem_singleton] at hxr
  subst hxr
  exact occursInWeek_false_notin hocc hx

theorem weekClean_append_cleanup {g : Groups} {r : Record} (h : weekClean g)
    (hocc : occursInWeek g r.name = false) :
    weekClean { g with cleanup := g.cleanup ++ [r] } := by
  show (List.map Record.name (g.setup ++ (g.cleanup ++ [r]))).Nodup
  have he : g.setup ++ (g.cleanup ++ [r]) = (g.setup ++ g.cleanup) ++ [r] := by
    rw [List.append_assoc]
  rw [he, List.map_append, List.nodup_append]
  refine ⟨h, List.nodup_singleton r.name, ?_⟩
  intro x hx hxr
  simp only [List.map_cons, List.map_nil, List.mem_singleton] at hxr
  subst hxr
  exact occursInWeek_false_notin hocc hx



theorem prefOK_empty (prefsL : List (String × Prefs)) : prefOK prefsL ⟨[], []⟩ :=
  ⟨fun r hr => absurd hr (List.not_mem_nil r), fun r hr => absurd hr (List.not_mem_nil r)⟩

theorem weekClean_empty : weekClean ⟨[], []⟩ := List.nodup_nil

theorem CleanSched_getD {sched : Schedule} (h : CleanSched sched) (idx : Nat) :
    weekClean (sched.getD idx ⟨[], []⟩) := by
  by_cases hlt : idx < sched.length
  · rw [List.getD_eq_getElem sched _ hlt]
    exact h _ (List.getElem_mem hlt)
  · rw [List.getD_eq_default sched _ (Nat.le_of_not_lt hlt)]
    exact weekClean_empty

theorem PrefSched_getD {prefsL : List (String × Prefs)} {sched : Schedule}
    (h : PrefSched prefsL sched) (idx : Nat) :
    prefOK prefsL (sched.getD idx ⟨[], []⟩) := by
  by_cases hlt : idx < sched.length
  · rw [List.getD_eq_getElem sched _ hlt]
    exact h _ (List.getElem_mem hlt)
  · rw [List.getD_eq_default sched _ (Nat.le_of_not_lt hlt)]
    exact prefOK_empty prefsL

theorem prefOK_append_setup {prefsL : List (String × Prefs)} {g : Groups} {r : Record}
    (h : prefOK prefsL g)
    (hp : ∃ p, (r.name, p) ∈ prefsL ∧ (p.preference = "s" ∨ p.preference = "s/c")) :
    prefOK prefsL { g with setup := g.setup ++ [r] } := by
  refine ⟨?_, h.2⟩
  intro x hx
  rcases List.mem_append.mp hx with hx | hx
  · exact h.1 x hx
  · rw [List.mem_singleton.mp hx]
    exact hp

theorem prefOK_append_cleanup {prefsL : List (String × Prefs)} {g : Groups} {r : Record}
    (h : prefOK prefsL g)
    (hp : ∃ p, (r.name, p) ∈ prefsL ∧ (p.preference = "c" ∨ p.preference = "s/c")) :
    prefOK prefsL { g with cleanup := g.cleanup ++ [r] } := by
  refine ⟨h.1, ?_⟩
  intro x hx
  rcases List.mem_append.mp hx with hx | hx
  · exact h.2 x hx
  · rw [List.mem_singleton.mp hx]
    exact hp

theorem prefOK_of_sublists {prefsL : List (String × Prefs)} {g g' : Groups}
    (hs : List.Sublist g'.setup g.setup) (hc2 : List.Sublist g'.cleanup g.cleanup)
    (h : prefOK prefsL g) : prefOK prefsL g' :=
  ⟨fun r hr => h.1 r (hs.subset hr), fun r hr => h.2 r (hc2.subset hr)⟩

theorem StIndeps_of_sched_eq {prefsL : List (String × Prefs)} {idx : Nat}
    {st st₂ : SState} (h : st₂.sched = st.sched) : StIndeps prefsL idx st st₂ :=
  ⟨by rw [h], fun j _ => by rw [h], fun hc => by rw [h]; exact hc,
    fun hp => by rw [h]; exact hp⟩

theorem StIndeps_updWeek_append_setup {prefsL : List (String × Prefs)} {idx : Nat}
    {st : SState} {r : Record}
    (hocc : occursInWeek (st.sched.getD idx ⟨[], []⟩) r.name = false)
    (hp : ∃ p, (r.name, p) ∈ prefsL ∧ (p.preference = "s" ∨ p.preference = "s/c")) :
    StIndeps prefsL idx st (updWeek st idx fun g => { g with setup := g.setup ++ [r] }) := by
  refine ⟨updWeek_sched_length st idx _, fun j hj => updWeek_sched_ne st idx _ (by omega),
    ?_, ?_⟩
  · intro hc g hg
    rcases List.mem_or_eq_of_mem_set hg with h1 | h1
    · exact hc g h1
    · subst h1
      exact weekClean_append_setup (CleanSched_getD hc idx) hocc
  · intro hpr g hg
    rcases List.mem_or_eq_of_mem_set hg with h1 | h1
    · exact hpr g h1
    · subst h1
      exact prefOK_append_setup (PrefSched_getD hpr idx) hp

theorem StIndeps_updWeek_append_cleanup {prefsL : List (String × Prefs)} {idx : Nat}
    {st : SState} {r : Record}
    (hocc : occursInWeek (st.sched.getD idx ⟨[], []⟩) r.name = false)
    (hp : ∃ p, (r.name, p) ∈ prefsL ∧ (p.preference = "c" ∨ p.preference = "s/c")) :
    StIndeps prefsL idx st (updWeek st idx fun g => { g with cleanup := g.cleanup ++ [r] }) := by
  refine ⟨updWeek_sched_length st idx _, fun j hj => updWeek_sched_ne st idx _ (by omega),
    ?_, ?_⟩
  · intro hc g hg
    rcases List.mem_or_eq_of_mem_set hg with h1 | h1
    · exact hc g h1
    · subst h1
      exact weekClean_append_cleanup (CleanSched_getD hc idx) hocc
  · intro hpr g hg
    rcases List.mem_or_eq_of_mem_set hg with h1 | h1
    · exact hpr g h1
    · subst h1
      exact prefOK_append_cleanup (PrefSched_getD hpr idx) hp

theorem StIndeps_dropSetup (prefsL : List (String × Prefs)) (idx : Nat) (st : SState) :
    StIndeps prefsL idx st
      (updWeek st idx fun g => { g with setup := g.setup.dropLast }) := by
  refine ⟨updWeek_sched_length st idx _, fun j hj => updWeek_sched_ne st idx _ (by omega),
    ?_, ?_⟩
  · intro hc g hg
    rcases List.mem_or_eq_of_mem_set hg with h1 | h1
    · exact hc g h1
    · subst h1
      refine weekClean_of_sublists ?_ ?_ (CleanSched_getD hc idx)
      · exact List.dropLast_sublist _
      · exact List.Sublist.refl _
  · intro hpr g hg
    rcases List.mem_or_eq_of_mem_set hg with h1 | h1
    · exact hpr g h1
    · subst h1
      refine prefOK_of_sublists ?_ ?_ (PrefSched_getD hpr idx)
      · exact List.dropLast_sublist _
      · exact List.Sublist.refl _

theorem StIndeps_dropCleanup (prefsL : List (String × Prefs)) (idx : Nat) (st : SState) :
    StIndeps prefsL idx st
      (updWeek st idx fun g => { g with cleanup := g.cleanup.dropLast }) := by
  refine ⟨updWeek_sched_length st idx _, fun j hj => updWeek_sched_ne st idx _ (by omega),
    ?_, ?_⟩
  · intro hc g hg
    rcases List.mem_or_eq_of_mem_set hg with h1 | h1
    · exact hc g h1
    · subst h1
      refine weekClean_of_sublists ?_ ?_ (CleanSched_getD hc idx)
      · exact List.Sublist.refl _
      · exact List.dropLast_sublist _
  · intro hpr g hg
    rcases List.mem_or_eq_of_mem_set hg with h1 | h1
    · exact hpr g h1
    · subst h1
      refine prefOK_of_sublists ?_ ?_ (PrefSched_getD hpr idx)
      · exact List.Sublist.refl _
      · exact List.dropLast_sublist _

theorem candidateSkip_false_occurs {cfg : Config} {sched : Schedule} {idx : Nat}
    {person : String} (h : candidateSkip cfg sched idx person = .ok false) :
    occursInWeek (sched.getD idx ⟨[], []⟩) person = false := by
  cases ho : occursInWeek (sched.getD idx ⟨[], []⟩) person
  · rfl
  · exfalso
    have ho2 : occursInWeek (sched[idx]?.getD ⟨[], []⟩) person = true := by
      rw [← ho]
      congr 1
      simp [List.getD]
    simp [candidateSkip, ho2, pure, Except.pure] at h



theorem leaderUndoSetup_post {prefsL : List (String × Prefs)} {idx : Nat}
    {person : String} {pf : Prefs} {ltw : Option Bool} {st st₂ : SState}
    (h : leaderUndoSetup idx person pf ltw st = .ok st₂) :
    StIndeps prefsL idx st st₂ := by
  unfold leaderUndoSetup at h
  split at h
  · dsimp only at h
    split at h
    · exact absurd h (by simp)
    · split at h <;> simp only [pure, Except.pure, Except.ok.injEq] at h <;> subst h
      · exact StIndeps_trans (StIndeps_dropSetup prefsL idx st)
          (StIndeps_of_sched_eq rfl)
      · exact StIndeps_dropSetup prefsL idx st
  · simp only [pure, Except.pure, Except.ok.injEq] at h
    subst h
    exact StIndeps_refl prefsL idx st

theorem leaderUndoCleanup_post {prefsL : List (String × Prefs)} {idx : Nat}
    {person : String} {pf : Prefs} {ltw : Option Bool} {st st₂ : SState}
    (h : leaderUndoCleanup idx person pf ltw st = .ok st₂) :
    StIndeps prefsL idx st st₂ := by
  unfold leaderUndoCleanup at h
  split at h
  · dsimp only at h
    split at h
    · exact absurd h (by simp)
    · split at h <;> simp only [pure, Except.pure, Except.ok.injEq] at h <;> subst h
      · exact StIndeps_trans (StIndeps_dropCleanup prefsL idx st)
          (StIndeps_of_sched_eq rfl)
      · exact StIndeps_dropCleanup prefsL idx st
  · simp only [pure, Except.pure, Except.ok.injEq] at h
    subst h
    exact StIndeps_refl prefsL idx st

theorem leaderUndo_post {prefsL : List (String × Prefs)} {idx : Nat}
    {person : String} {pf : Prefs} {ltw : Option Bool} {st st₂ : SState}
    (h : leaderUndo idx person pf ltw st = .ok st₂) :
    StIndeps prefsL idx st st₂ := by
  unfold leaderUndo at h
  cases h1 : leaderUndoSetup idx person pf ltw st with
  | error e => rw [h1] at h; exact absurd h (by simp [Bind.bind, Except.bind])
  | ok s1 =>
    rw [h1] at h
    simp only [Bind.bind, Except.bind] at h
    exact StIndeps_trans (leaderUndoSetup_post h1) (leaderUndoCleanup_post h)

theorem shadowUndoSetup_post (prefsL : List (String × Prefs)) (idx : Nat)
    (person : String) (pf : Prefs) (stw : Bool) (st : SState) :
    StIndeps prefsL idx st (shadowUndoSetup idx person pf stw st) := by
  unfold shadowUndoSetup
  split
  · dsimp only
    split
    · exact StIndeps_trans (StIndeps_dropSetup prefsL idx st)
        (StIndeps_of_sched_eq rfl)
    · exact StIndeps_dropSetup prefsL idx st
  · exact StIndeps_refl prefsL idx st

theorem shadowUndoCleanup_post (prefsL : List (String × Prefs)) (idx : Nat)
    (person : String) (pf : Prefs) (stw : Bool) (st : SState) :
    StIndeps prefsL idx st (shadowUndoCleanup idx person pf stw st) := by
  unfold shadowUndoCleanup
  split
  · dsimp only
    split
    · exact StIndeps_trans (StIndeps_dropCleanup prefsL idx st)
        (StIndeps_of_sched_eq rfl)
    · exact StIndeps_dropCleanup prefsL idx st
  · exact StIndeps_refl prefsL idx st

theorem shadowUndo_post (prefsL : List (String × Prefs)) (idx : Nat)
    (person : String) (pf : Prefs) (stw : Bool) (st : SState) :
    StIndeps prefsL idx st (shadowUndo idx person pf stw st) :=
  StIndeps_trans (shadowUndoSetup_post prefsL idx person pf stw st)
    (shadowUndoCleanup_post prefsL idx person pf stw _)

theorem participantUndoSetup_post (prefsL : List (String × Prefs)) (idx : Nat)
    (pf : Prefs) (st : SState) :
    StIndeps prefsL idx st (participantUndoSetup idx pf st) := by
  unfold participantUndoSetup
  split
  · exact StIndeps_dropSetup prefsL idx st
  · exact StIndeps_refl prefsL idx st

theorem participantUndoCleanup_post (prefsL : List (String × Prefs)) (idx : Nat)
    (pf : Prefs) (st : SState) :
    StIndeps prefsL idx st (participantUndoCleanup idx pf st) := by
  unfold participantUndoCleanup
  split
  · exact StIndeps_dropCleanup prefsL idx st
  · exact StIndeps_refl prefsL idx st

theorem participantUndo_post (prefsL : List (String × Prefs)) (idx : Nat)
    (pf : Prefs) (st : SState) :
    StIndeps prefsL idx st (participantUndo idx pf st) :=
  StIndeps_trans (participantUndoSetup_post prefsL idx pf st)
    (participantUndoCleanup_post prefsL idx pf _)



theorem getD_eq_of_getElem? {α : Type} {l : List α} {i : Nat} {a : α} (d : α)
    (h : l[i]? = some a) : l.getD i d = a := by
  obtain ⟨hlt, hEq⟩ := List.getElem?_eq_some.mp h
  rw [List.getD_eq_getElem l d hlt]
  exact hEq

theorem phasePost_pre {cfg : Config} {prefsL : List (String × Prefs)}
    {numWeeks idx : Nat} {st st' : SState} {res : PhaseRes}
    (h1 : StIndeps prefsL idx st st')
    (h2 : phasePost cfg prefsL numWeeks idx st' res) :
    phasePost cfg prefsL numWeeks idx st res := by
  cases res with
  | done s => exact StIndeps_trans h1 h2
  | success s => exact ⟨StIndeps_trans h1 h2.1, h2.2⟩

theorem fullRange_of_success {cfg : Config} {prefsL : List (String × Prefs)}
    {numWeeks idx : Nat} {st s₂ : SState}
    (hst : StIndeps prefsL (idx + 1) st s₂)
    (hfull : fullWeek cfg (getWeek st idx))
    (hrng : FullRange cfg numWeeks (idx + 1) s₂.sched) :
    FullRange cfg numWeeks idx s₂.sched := by
  intro j hj1 hj2 g hg
  rcases Nat.eq_or_lt_of_le hj1 with rfl | hlt
  · have hst2 : st.sched[idx]? = some g := by
      rw [← hst.2.1 idx (by omega)]
      exact hg
    have hgd := getD_eq_of_getElem? (⟨[], []⟩ : Groups) hst2
    unfold getWeek at hfull
    rw [hgd] at hfull
    exact hfull
  · exact hrng j hlt hj2 g hg

theorem leaderPhase_post (cfg : Config) (prefsL : List (String × Prefs))
    (numWeeks idx : Nat) (recurse : SState → Except PyErr (Bool × SState))
    (hrec : recPost cfg prefsL numWeeks idx recurse) :
    ∀ (cands : List (String × Prefs)) (st : SState) (remS remC : Nat)
      (ltw : Option Bool) (res : PhaseRes),
      leaderPhase cfg recurse idx cands st remS remC ltw = .ok res →
      (∀ c ∈ cands, c ∈ prefsL) →
      phasePost cfg prefsL numWeeks idx st res
  | [], st, remS, remC, ltw, res, h, _ => by
    simp only [leaderPhase, Except.ok.injEq] at h
    subst h
    exact StIndeps_refl prefsL idx st
  | (person, pf) :: rest, st, remS, remC, ltw, res, h, hc => by
    have hcrest : ∀ c ∈ rest, c ∈ prefsL :=
      fun c hcm => hc c (List.mem_cons_of_mem _ hcm)
    simp only [leaderPhase] at h
    cases hsk : candidateSkip cfg st.sched idx person with
    | error e =>
      rw [hsk] at h
      exact absurd h (by simp [Bind.bind, Except.bind])
    | ok b =>
      rw [hsk, ok_bind] at h
      cases b with
      | true =>
        rw [if_pos rfl] at h
        exact leaderPhase_post cfg prefsL numWeeks idx recurse hrec rest st remS remC
          ltw res h hcrest
      | false =>
        rw [if_neg Bool.false_ne_true] at h
        have hocc := candidateSkip_false_occurs hsk
        by_cases hg1 : ((pf.preference = "s" || pf.preference = "s/c") &&
            decide ((getWeek st idx).setup.length < cfg.MIN_SETUP) && pf.leader &&
            decide (0 < remS)) = true
        · rw [if_pos hg1] at h
          have hp : ∃ p, (person, p) ∈ prefsL ∧
              (p.preference = "s" ∨ p.preference = "s/c") := by
            refine ⟨pf, hc _ (List.mem_cons_self _ _), ?_⟩
            simp only [Bool.and_eq_true, Bool.or_eq_true, decide_eq_true_eq] at hg1
            exact hg1.1.1.1
          have hrest := leaderPhase_post cfg prefsL numWeeks idx recurse hrec rest _ _ _ _
            res h hcrest
          exact phasePost_pre (StIndeps_trans
            (StIndeps_updWeek_append_setup (r := ⟨person, pf.leader, pf.shadow, false, true⟩)
              hocc hp) (StIndeps_of_sched_eq rfl)) hrest
        · rw [if_neg hg1] at h
          by_cases hg2 : ((pf.preference = "c" || pf.preference = "s/c") &&
              decide ((getWeek st idx).cleanup.length < cfg.MIN_CLEANUP) && pf.leader &&
              decide (0 < remC)) = true
          · rw [if_pos hg2] at h
            have hp : ∃ p, (person, p) ∈ prefsL ∧
                (p.preference = "c" ∨ p.preference = "s/c") := by
              refine ⟨pf, hc _ (List.mem_cons_self _ _), ?_⟩
              simp only [Bool.and_eq_true, Bool.or_eq_true, decide_eq_true_eq] at hg2
              exact hg2.1.1.1
            have hrest := leaderPhase_post cfg prefsL numWeeks idx recurse hrec rest _ _ _ _
              res h hcrest
            exact phasePost_pre (StIndeps_trans
              (StIndeps_updWeek_append_cleanup (r := ⟨person, pf.leader, pf.shadow, false, true⟩)
                hocc hp) (StIndeps_of_sched_eq rfl)) hrest
          · rw [if_neg hg2] at h
            by_cases hfull : (getWeek st idx).setup.length = cfg.MIN_SETUP ∧
                (getWeek st idx).cleanup.length = cfg.MIN_CLEANUP
            · rw [if_pos hfull] at h
              cases hrc : recurse st with
              | error e =>
                rw [hrc] at h
                exact absurd h (by simp [Bind.bind, Except.bind])
              | ok rb =>
                obtain ⟨b2, s₂⟩ := rb
                rw [hrc, ok_bind] at h
                have hr := hrec st b2 s₂ hrc
                cases b2 with
                | true =>
                  simp only [if_pos rfl, if_true, Except.ok.injEq] at h
                  subst h
                  refine ⟨StIndeps_mono (by omega) hr.1, ?_⟩
                  exact fullRange_of_success hr.1 hfull (hr.2 rfl)
                | false =>
                  rw [if_neg Bool.false_ne_true] at h
                  cases hu : leaderUndo idx person pf ltw s₂ with
                  | error e =>
                    rw [hu] at h
                    exact absurd h (by simp [Bind.bind, Except.bind])
                  | ok s₃ =>
                    rw [hu, ok_bind] at h
                    have hrest := leaderPhase_post cfg prefsL numWeeks idx recurse hrec
                      rest _ _ _ _ res h hcrest
                    exact phasePost_pre (StIndeps_trans (StIndeps_mono (by omega) hr.1)
                      (leaderUndo_post hu)) hrest
            · rw [if_neg hfull] at h
              exact leaderPhase_post cfg prefsL numWeeks idx recurse hrec rest st remS remC
                ltw res h hcrest



theorem shadowPhase_post (cfg : Config) (prefsL : List (String × Prefs))
    (numWeeks idx : Nat) (recurse : SState → Except PyErr (Bool × SState))
    (hrec : recPost cfg prefsL numWeeks idx recurse) :
    ∀ (cands : List (String × Prefs)) (st : SState) (remS remC : Nat)
      (res : PhaseRes),
      shadowPhase cfg recurse idx cands st remS remC = .ok res →
      (∀ c ∈ cands, c ∈ prefsL) →
      phasePost cfg prefsL numWeeks idx st res
  | [], st, remS, remC, res, h, _ => by
    simp only [shadowPhase, Except.ok.injEq] at h
    subst h
    exact StIndeps_refl prefsL idx st
  | (person, pf) :: rest, st, remS, remC, res, h, hc => by
    have hcrest : ∀ c ∈ rest, c ∈ prefsL :=
      fun c hcm => hc c (List.mem_cons_of_mem _ hcm)
    simp only [shadowPhase] at h
    by_cases hbreak : remS = 0 ∧ remC = 0
    · rw [if_pos hbreak, Except.ok.injEq] at h
      subst h
      exact StIndeps_refl prefsL idx st
    · rw [if_neg hbreak] at h
      cases hsk : candidateSkip cfg st.sched idx person with
      | error e =>
        rw [hsk] at h
        exact absurd h (by simp [Bind.bind, Except.bind])
      | ok b =>
        rw [hsk, ok_bind] at h
        cases b with
        | true =>
          rw [if_pos rfl] at h
          exact shadowPhase_post cfg prefsL numWeeks idx recurse hrec rest st remS remC
            res h hcrest
        | false =>
          rw [if_neg Bool.false_ne_true] at h
          have hocc := candidateSkip_false_occurs hsk
          by_cases hg1 : ((pf.preference = "s" || pf.preference = "s/c") &&
              decide ((getWeek st idx).setup.length < cfg.MIN_SETUP) && pf.shadow &&
              decide (0 < remS)) = true
          · rw [if_pos hg1] at h
            have hp : ∃ p, (person, p) ∈ prefsL ∧
                (p.preference = "s" ∨ p.preference = "s/c") := by
              refine ⟨pf, hc _ (List.mem_cons_self _ _), ?_⟩
              simp only [Bool.and_eq_true, Bool.or_eq_true, decide_eq_true_eq] at hg1
              exact hg1.1.1.1
            have hrest := shadowPhase_post cfg prefsL numWeeks idx recurse hrec rest _ _ _
              res h hcrest
            exact phasePost_pre (StIndeps_trans
              (StIndeps_updWeek_append_setup (r := ⟨person, false, pf.shadow, true, false⟩)
                hocc hp) (StIndeps_of_sched_eq rfl)) hrest
          · rw [if_neg hg1] at h
            by_cases hg2 : ((pf.preference = "c" || pf.preference = "s/c") &&
                decide ((getWeek st idx).cleanup.length < cfg.MIN_CLEANUP) && pf.shadow &&
                decide (0 < remC)) = true
            · rw [if_pos hg2] at h
              have hp : ∃ p, (person, p) ∈ prefsL ∧
                  (p.preference = "c" ∨ p.preference = "s/c") := by
                refine ⟨pf, hc _ (List.mem_cons_self _ _), ?_⟩
                simp only [Bool.and_eq_true, Bool.or_eq_true, decide_eq_true_eq] at hg2
                exact hg2.1.1.1
              have hrest := shadowPhase_post cfg prefsL numWeeks idx recurse hrec rest _ _ _
                res h hcrest
              exact phasePost_pre (StIndeps_trans
                (StIndeps_updWeek_append_cleanup (r := ⟨person, false, pf.shadow, true, false⟩)
                  hocc hp) (StIndeps_of_sched_eq rfl)) hrest
            · rw [if_neg hg2] at h
              by_cases hfull : (getWeek st idx).setup.length = cfg.MIN_SETUP ∧
                  (getWeek st idx).cleanup.length = cfg.MIN_CLEANUP
              · rw [if_pos hfull] at h
                cases hrc : recurse st with
                | error e =>
                  rw [hrc] at h
                  exact absurd h (by simp [Bind.bind, Except.bind])
                | ok rb =>
                  obtain ⟨b2, s₂⟩ := rb
                  rw [hrc, ok_bind] at h
                  have hr := hrec st b2 s₂ hrc
                  cases b2 with
                  | true =>
                    simp only [if_pos rfl, if_true, Except.ok.injEq] at h
                    subst h
                    refine ⟨StIndeps_mono (by omega) hr.1, ?_⟩
                    exact fullRange_of_success hr.1 hfull (hr.2 rfl)
                  | false =>
                    rw [if_neg Bool.false_ne_true] at h
                    have hrest := shadowPhase_post cfg prefsL numWeeks idx recurse hrec
                      rest _ _ _ res h hcrest
                    exact phasePost_pre (StIndeps_trans (StIndeps_mono (by omega) hr.1)
                      (shadowUndo_post prefsL idx person pf false s₂)) hrest
              · rw [if_neg hfull] at h
                exact shadowPhase_post cfg prefsL numWeeks idx recurse hrec rest st remS
                  remC res h hcrest



theorem participantStep_post (cfg : Config) (prefsL : List (String × Prefs))
    (numWeeks idx : Nat) (recurse : SState → Except PyErr (Bool × SState))
    (hrec : recPost cfg prefsL numWeeks idx recurse) (person : String) (pf : Prefs)
    (st : SState) (r : StepRes)
    (h : participantStep cfg recurse idx person pf st = .ok r)
    (hcp : (person, pf) ∈ prefsL) :
    (∀ s₂, r = StepRes.next s₂ → StIndeps prefsL idx st s₂) ∧
    (∀ s₂, r = StepRes.success s₂ → StIndeps prefsL idx st s₂ ∧
      FullRange cfg numWeeks idx s₂.sched) := by
  have key : ∀ (st1 : SState), StIndeps prefsL idx st st1 →
      ((if (getWeek st1 idx).setup.length = cfg.MIN_SETUP ∧
          (getWeek st1 idx).cleanup.length = cfg.MIN_CLEANUP then do
          let rr ← recurse st1
          if rr.1 then Except.ok (StepRes.success rr.2)
          else Except.ok (StepRes.next (participantUndo idx pf rr.2))
        else Except.ok (StepRes.next st1)) : Except PyErr StepRes) = .ok r →
      (∀ s₂, r = StepRes.next s₂ → StIndeps prefsL idx st s₂) ∧
      (∀ s₂, r = StepRes.success s₂ → StIndeps prefsL idx st s₂ ∧
        FullRange cfg numWeeks idx s₂.sched) := by
    intro st1 hst1 h1
    by_cases hfull : (getWeek st1 idx).setup.length = cfg.MIN_SETUP ∧
        (getWeek st1 idx).cleanup.length = cfg.MIN_CLEANUP
    · rw [if_pos hfull] at h1
      cases hrc : recurse st1 with
      | error e =>
        rw [hrc] at h1
        exact absurd h1 (by simp [Bind.bind, Except.bind])
      | ok rb =>
        obtain ⟨b2, s₂⟩ := rb
        rw [hrc, ok_bind] at h1
        have hr := hrec st1 b2 s₂ hrc
        cases b2 with
        | true =>
          simp only [if_pos rfl, if_true, Except.ok.injEq] at h1
          subst h1
          constructor
          · intro s₃ he
            exact absurd he (by simp)
          · intro s₃ he
            rw [StepRes.success.injEq] at he
            subst he
            refine ⟨StIndeps_trans hst1 (StIndeps_mono (by omega) hr.1), ?_⟩
            exact fullRange_of_success hr.1 hfull (hr.2 rfl)
        | false =>
          rw [if_neg Bool.false_ne_true, Except.ok.injEq] at h1
          subst h1
          constructor
          · intro s₃ he
            rw [StepRes.next.injEq] at he
            subst he
            exact StIndeps_trans hst1 (StIndeps_trans (StIndeps_mono (by omega) hr.1)
              (participantUndo_post prefsL idx pf s₂))
          · intro s₃ he
            exact absurd he (by simp)
    · rw [if_neg hfull, Except.ok.injEq] at h1
      subst h1
      constructor
      · intro s₃ he
        rw [StepRes.next.injEq] at he
        subst he
        exact hst1
      · intro s₃ he
        exact absurd he (by simp)
  unfold participantStep at h
  cases hsk : candidateSkip cfg st.sched idx person with
  | error e =>
    rw [hsk] at h
    exact absurd h (by simp [Bind.bind, Except.bind])
  | ok b =>
    rw [hsk, ok_bind] at h
    cases b with
    | true =>
      rw [if_pos rfl, Except.ok.injEq] at h
      subst h
      constructor
      · intro s₃ he
        rw [StepRes.next.injEq] at he
        subst he
        exact StIndeps_refl prefsL idx st
      · intro s₃ he
        exact absurd he (by simp)
    | false =>
      rw [if_neg Bool.false_ne_true] at h
      have hocc := candidateSkip_false_occurs hsk
      dsimp only at h
      by_cases hg1 : ((pf.preference = "s" || pf.preference = "s/c") &&
          decide ((getWeek st idx).setup.length < cfg.MIN_SETUP)) = true
      · rw [if_pos hg1] at h
        have hp : ∃ p, (person, p) ∈ prefsL ∧
            (p.preference = "s" ∨ p.preference = "s/c") := by
          refine ⟨pf, hcp, ?_⟩
          simp only [Bool.and_eq_true, Bool.or_eq_true, decide_eq_true_eq] at hg1
          exact hg1.1
        exact key _ (StIndeps_updWeek_append_setup
          (r := ⟨person, pf.leader, pf.shadow, false, false⟩) hocc hp) h
      · rw [if_neg hg1] at h
        by_cases hg2 : ((pf.preference = "c" || pf.preference = "s/c") &&
            decide ((getWeek st idx).cleanup.length < cfg.MIN_CLEANUP)) = true
        · rw [if_pos hg2] at h
          have hp : ∃ p, (person, p) ∈ prefsL ∧
              (p.preference = "c" ∨ p.preference = "s/c") := by
            refine ⟨pf, hcp, ?_⟩
            simp only [Bool.and_eq_true, Bool.or_eq_true, decide_eq_true_eq] at hg2
            exact hg2.1
          exact key _ (StIndeps_updWeek_append_cleanup
            (r := ⟨person, pf.leader, pf.shadow, false, false⟩) hocc hp) h
        · rw [if_neg hg2] at h
          exact key st (StIndeps_refl prefsL idx st) h

theorem participantsPhase_post (cfg : Config) (prefsL : List (String × Prefs))
    (numWeeks idx : Nat) (recurse : SState → Except PyErr (Bool × SState))
    (hrec : recPost cfg prefsL numWeeks idx recurse) :
    ∀ (cands : List (String × Prefs)) (st : SState) (res : PhaseRes),
      participantsPhase cfg recurse idx cands st = .ok res →
      (∀ c ∈ cands, c ∈ prefsL) →
      phasePost cfg prefsL numWeeks idx st res
  | [], st, res, h, _ => by
    simp only [participantsPhase, Except.ok.injEq] at h
    subst h
    exact StIndeps_refl prefsL idx st
  | (person, pf) :: rest, st, res, h, hc => by
    have hcrest : ∀ c ∈ rest, c ∈ prefsL :=
      fun c hcm => hc c (List.mem_cons_of_mem _ hcm)
    simp only [participantsPhase] at h
    cases hstp : participantStep cfg recurse idx person pf st with
    | error e =>
      rw [hstp] at h
      exact absurd h (by simp [Bind.bind, Except.bind])
    | ok r =>
      rw [hstp, ok_bind] at h
      have hsp := participantStep_post cfg prefsL numWeeks idx recurse hrec person pf
        st r hstp (hc _ (List.mem_cons_self _ _))
      cases r with
      | success s =>
        dsimp only at h
        rw [Except.ok.injEq] at h
        subst h
        exact hsp.2 s rfl
      | next s =>
        dsimp only at h
        have hrest := participantsPhase_post cfg prefsL numWeeks idx recurse hrec rest s
          res h hcrest
        exact phasePost_pre (hsp.1 s rfl) hrest



theorem backtracking_helper_succ (cfg : Config) (prefsL : List (String × Prefs))
    (numWeeks : Nat) (oracle : Nat → List (String × Prefs) → List (String × Prefs))
    (fuel idx : Nat) (st : SState) (hidx : ¬ idx = numWeeks) :
    backtracking_helper cfg prefsL numWeeks oracle (fuel + 1) idx st =
      (do
        let r1 ← leaderPhase cfg
          (fun s => backtracking_helper cfg prefsL numWeeks oracle fuel (idx + 1) s) idx
          (stableSortBy (fun p => countName st.sched p.1)
            ((oracle st.ctr prefsL).filter fun p => p.2.leader))
          { st with ctr := st.ctr + 1 } cfg.NUM_SETUP_LEADERS cfg.NUM_CLEANUP_LEADERS none
        match r1 with
        | .success s => .ok (true, s)
        | .done st2 => do
          let r2 ← shadowPhase cfg
            (fun s => backtracking_helper cfg prefsL numWeeks oracle fuel (idx + 1) s) idx
            (stableSortBy (fun p => countName st2.sched p.1)
              ((oracle st.ctr prefsL).filter fun p => p.2.shadow && !p.2.leader))
            st2 cfg.NUM_SETUP_SHADOWS cfg.NUM_CLEANUP_SHADOWS
          match r2 with
          | .success s => .ok (true, s)
          | .done st3 => do
            let r3 ← participantsPhase cfg
              (fun s => backtracking_helper cfg prefsL numWeeks oracle fuel (idx + 1) s) idx
              (stableSortBy (fun p => countName st3.sched p.1) (oracle st.ctr prefsL)) st3
            match r3 with
            | .success s => .ok (true, s)
            | .done st4 => .ok (false, st4)) := by
  rw [backtracking_helper]
  rw [if_neg hidx]

theorem backtracking_helper_post (cfg : Config) (prefsL : List (String × Prefs))
    (numWeeks : Nat) (oracle : Nat → List (String × Prefs) → List (String × Prefs))
    (hO : ∀ k l x, x ∈ oracle k l → x ∈ l) :
    ∀ (fuel idx : Nat) (st : SState) (b : Bool) (st₂ : SState),
      backtracking_helper cfg prefsL numWeeks oracle fuel idx st = .ok (b, st₂) →
      StIndeps prefsL idx st st₂ ∧ (b = true → FullRange cfg numWeeks idx st₂.sched)
  | 0, idx, st, b, st₂, h => by
    simp only [backtracking_helper, Except.ok.injEq, Prod.mk.injEq] at h
    obtain ⟨hb, hst⟩ := h
    subst hst
    refine ⟨StIndeps_refl prefsL idx st, ?_⟩
    intro hbt
    rw [← hb] at hbt
    exact absurd hbt (by simp)
  | fuel + 1, idx, st, b, st₂, h => by
    by_cases hidx : idx = numWeeks
    · rw [backtracking_helper, if_pos hidx, Except.ok.injEq, Prod.mk.injEq] at h
      obtain ⟨hb, hst⟩ := h
      subst hst
      refine ⟨StIndeps_refl prefsL idx st, ?_⟩
      intro _
      intro j hj1 hj2 g hg
      omega
    · rw [backtracking_helper_succ cfg prefsL numWeeks oracle fuel idx st hidx] at h
      have hrec : recPost cfg prefsL numWeeks idx
          (fun s => backtracking_helper cfg prefsL numWeeks oracle fuel (idx + 1) s) :=
        fun s b2 s₂ hr =>
          backtracking_helper_post cfg prefsL numWeeks oracle hO fuel (idx + 1) s b2 s₂ hr
      have hmem : ∀ c ∈ oracle st.ctr prefsL, c ∈ prefsL := fun c hcm => hO _ _ _ hcm
      cases hl : leaderPhase cfg
          (fun s => backtracking_helper cfg prefsL numWeeks oracle fuel (idx + 1) s) idx
          (stableSortBy (fun p => countName st.sched p.1)
            ((oracle st.ctr prefsL).filter fun p => p.2.leader))
          { st with ctr := st.ctr + 1 } cfg.NUM_SETUP_LEADERS cfg.NUM_CLEANUP_LEADERS none with
      | error e =>
        rw [hl] at h
        exact absurd h (by simp [Bind.bind, Except.bind])
      | ok r1 =>
        rw [hl, ok_bind] at h
        have hl2 := leaderPhase_post cfg prefsL numWeeks idx _ hrec _ _ _ _ _ _ hl
          (fun c hcm => hmem c (List.mem_filter.mp (mem_of_mem_stableSortBy hcm)).1)
        cases r1 with
        | success s =>
          dsimp only at h
          rw [Except.ok.injEq, Prod.mk.injEq] at h
          obtain ⟨hb, hst⟩ := h
          subst hst
          exact ⟨StIndeps_trans (StIndeps_ctr prefsL idx st _) hl2.1,
            fun _ => hl2.2⟩
        | done s2 =>
          dsimp only at h
          have hind1 : StIndeps prefsL idx st s2 :=
            StIndeps_trans (StIndeps_ctr prefsL idx st _) hl2
          cases hs : shadowPhase cfg
              (fun s => backtracking_helper cfg prefsL numWeeks oracle fuel (idx + 1) s) idx
              (stableSortBy (fun p => countName s2.sched p.1)
                ((oracle st.ctr prefsL).filter fun p => p.2.shadow && !p.2.leader))
              s2 cfg.NUM_SETUP_SHADOWS cfg.NUM_CLEANUP_SHADOWS with
          | error e =>
            rw [hs] at h
            exact absurd h (by simp [Bind.bind, Except.bind])
          | ok r2 =>
            rw [hs, ok_bind] at h
            have hs2 := shadowPhase_post cfg prefsL numWeeks idx _ hrec _ _ _ _ _ hs
              (fun c hcm => hmem c (List.mem_filter.mp (mem_of_mem_stableSortBy hcm)).1)
            cases r2 with
            | success s =>
              dsimp only at h
              rw [Except.ok.injEq, Prod.mk.injEq] at h
              obtain ⟨hb, hst⟩ := h
              subst hst
              exact ⟨StIndeps_trans hind1 hs2.1, fun _ => hs2.2⟩
            | done s3 =>
              dsimp only at h
              have hind2 : StIndeps prefsL idx st s3 := StIndeps_trans hind1 hs2
              cases hp : participantsPhase cfg
                  (fun s => backtracking_helper cfg prefsL numWeeks oracle fuel (idx + 1) s)
                  idx (stableSortBy (fun p => countName s3.sched p.1) (oracle st.ctr prefsL))
                  s3 with
              | error e =>
                rw [hp] at h
                exact absurd h (by simp [Bind.bind, Except.bind])
              | ok r3 =>
                rw [hp, ok_bind] at h
                have hp2 := participantsPhase_post cfg prefsL numWeeks idx _ hrec _ _ _ hp
                  (fun c hcm => hmem c (mem_of_mem_stableSortBy hcm))
                cases r3 with
                | success s =>
                  dsimp only at h
                  rw [Except.ok.injEq, Prod.mk.injEq] at h
                  obtain ⟨hb, hst⟩ := h
                  subst hst
                  exact ⟨StIndeps_trans hind2 hp2.1, fun _ => hp2.2⟩
                | done s4 =>
                  dsimp only at h
                  rw [Except.ok.injEq, Prod.mk.injEq] at h
                  obtain ⟨hb, hst⟩ := h
                  subst hst
                  refine ⟨StIndeps_trans hind2 hp2, ?_⟩
                  intro hbt
                  rw [← hb] at hbt
                  exact absurd hbt (by simp)



theorem keys_nodup_unique {prefsL : List (String × Prefs)}
    (hnd : (prefsL.map Prod.fst).Nodup) :
    ∀ {a : String} {b c : Prefs}, (a, b) ∈ prefsL → (a, c) ∈ prefsL → b = c := by
  induction prefsL with
  | nil => intro a b c h1 _; exact absurd h1 (List.not_mem_nil _)
  | cons p rest ih =>
    rw [List.map_cons, List.nodup_cons] at hnd
    intro a b c h1 h2
    rcases List.mem_cons.mp h1 with h1 | h1 <;> rcases List.mem_cons.mp h2 with h2 | h2
    · exact congrArg Prod.snd (h1.trans h2.symm)
    · exfalso
      apply hnd.1
      have hm : a ∈ rest.map Prod.fst := List.mem_map_of_mem Prod.fst h2
      have ha : a = p.1 := congrArg Prod.fst h1
      rwa [ha] at hm
    · exfalso
      apply hnd.1
      have hm : a ∈ rest.map Prod.fst := List.mem_map_of_mem Prod.fst h1
      have ha : a = p.1 := congrArg Prod.fst h2
      rwa [ha] at hm
    · exact ih hnd.2 h1 h2

theorem backtracker_ok_some {cfg : Config} {prefsL : List (String × Prefs)}
    {weeks : List String}
    {oracle : Nat → List (String × Prefs) → List (String × Prefs)} {sched : Schedule}
    (hO : ∀ k l x, x ∈ oracle k l → x ∈ l)
    (h : assign_shifts_backtracker cfg prefsL weeks oracle = .ok (some sched)) :
    sched.length = weeks.length ∧ CleanSched sched ∧ PrefSched prefsL sched ∧
      FullRange cfg weeks.length 0 sched := by
  unfold assign_shifts_backtracker at h
  dsimp only at h
  cases hh : backtracking_helper cfg prefsL weeks.length oracle (weeks.length + 1) 0
      ⟨List.replicate weeks.length ⟨[], []⟩, fun _ => [], fun _ => [], 0⟩ with
  | error e =>
    rw [hh] at h
    exact absurd h (by simp [Bind.bind, Except.bind])
  | ok rb =>
    obtain ⟨b, st₂⟩ := rb
    rw [hh, ok_bind] at h
    cases b with
    | false =>
      rw [if_neg Bool.false_ne_true] at h
      exact absurd h (by simp)
    | true =>
      rw [if_pos rfl, Except.ok.injEq, Option.some.injEq] at h
      subst h
      have hpost := backtracking_helper_post cfg prefsL weeks.length oracle hO
        (weeks.length + 1) 0 _ true st₂ hh
      refine ⟨?_, ?_, ?_, hpost.2 rfl⟩
      · rw [hpost.1.1]
        exact List.length_replicate _ _
      · refine hpost.1.2.2.1 ?_
        intro g hg
        rw [List.eq_of_mem_replicate hg]
        exact weekClean_empty
      · refine hpost.1.2.2.2 ?_
        intro g hg
        rw [List.eq_of_mem_replicate hg]
        exact prefOK_empty prefsL

/-- C7: in every schedule returned by `assign_shifts_backtracker` (non-`none`
result), for every week no person appears both in the setup group and in the
cleanup group, and no person appears twice within the same group. The
`hO` hypothesis states the shuffle oracle only permutes (never invents)
roster entries, which holds of `random.shuffle`. -/
theorem C7_no_double_booking (cfg : Config) (prefsL : List (String × Prefs))
    (weeks : List String)
    (oracle : Nat → List (String × Prefs) → List (String × Prefs)) (sched : Schedule)
    (hO : ∀ k l x, x ∈ oracle k l → x ∈ l)
    (h : assign_shifts_backtracker cfg prefsL weeks oracle = .ok (some sched)) :
    ∀ g ∈ sched, weekClean g :=
  (backtracker_ok_some hO h).2.1

/-- Witness for C7 on the concrete one-week instance. -/
theorem C7_no_double_booking_witness :
    (∀ k l x, x ∈ idOracle k l → x ∈ l) ∧
      assign_shifts_backtracker cfgOne prefsOne ["W1"] idOracle = .ok (some schedOne) ∧
      ∀ g ∈ schedOne, weekClean g :=
  ⟨fun _ _ _ hx => hx, rfl,
    C7_no_double_booking cfgOne prefsOne ["W1"] idOracle schedOne
      (fun _ _ _ hx => hx) rfl⟩

/-- C9: in every schedule returned by `assign_shifts_backtracker` (non-`none`
result), every week's setup group has at least `MIN_SETUP` people and every
week's cleanup group at least `MIN_CLEANUP` (the search only recurses past a
week once both groups are at their exact targets, so the bound is attained
with equality). -/
theorem C9_coverage (cfg : Config) (prefsL : List (String × Prefs))
    (weeks : List String)
    (oracle : Nat → List (String × Prefs) → List (String × Prefs)) (sched : Schedule)
    (hO : ∀ k l x, x ∈ oracle k l → x ∈ l)
    (h : assign_shifts_backtracker cfg prefsL weeks oracle = .ok (some sched)) :
    ∀ g ∈ sched, cfg.MIN_SETUP ≤ g.setup.length ∧ cfg.MIN_CLEANUP ≤ g.cleanup.length := by
  obtain ⟨hlen, -, -, hfr⟩ := backtracker_ok_some hO h
  intro g hg
  obtain ⟨j, hjlt, hjget⟩ := List.mem_iff_getElem.mp hg
  have hfull := hfr j (Nat.zero_le j) (by omega) g
    (by rw [List.getElem?_eq_getElem hjlt, hjget])
  exact ⟨le_of_eq hfull.1.symm, le_of_eq hfull.2.symm⟩

/-- Witness for C9 on the concrete one-week instance. -/
theorem C9_coverage_witness :
    (∀ k l x, x ∈ idOracle k l → x ∈ l) ∧
      assign_shifts_backtracker cfgOne prefsOne ["W1"] idOracle = .ok (some schedOne) ∧
      ∀ g ∈ schedOne,
        cfgOne.MIN_SETUP ≤ g.setup.length ∧ cfgOne.MIN_CLEANUP ≤ g.cleanup.length :=
  ⟨fun _ _ _ hx => hx, rfl,
    C9_coverage cfgOne prefsOne ["W1"] idOracle schedOne (fun _ _ _ hx => hx) rfl⟩

/-- C10: in every schedule returned by `assign_shifts_backtracker`, each
record respects its person's roster preference token: a setup member's
preference is "s" or "s/c", a cleanup member's is "c" or "s/c". Stated for
rosters whose names are distinct (`parse_file` builds the roster from a dict
keyed by name, so names are necessarily distinct). -/
theorem C10_preference_respected (cfg : Config) (prefsL : List (String × Prefs))
    (weeks : List String)
    (oracle : Nat → List (String × Prefs) → List (String × Prefs)) (sched : Schedule)
    (hO : ∀ k l x, x ∈ oracle k l → x ∈ l)
    (hnd : (prefsL.map Prod.fst).Nodup)
    (h : assign_shifts_backtracker cfg prefsL weeks oracle = .ok (some sched)) :
    ∀ g ∈ sched,
      (∀ r ∈ g.setup, ∀ p, (r.name, p) ∈ prefsL →
        (p.preference = "s" ∨ p.preference = "s/c")) ∧
      (∀ r ∈ g.cleanup, ∀ p, (r.name, p) ∈ prefsL →
        (p.preference = "c" ∨ p.preference = "s/c")) := by
  have hps := (backtracker_ok_some hO h).2.2.1
  intro g hg
  obtain ⟨hs, hc⟩ := hps g hg
  constructor
  · intro r hr p hp
    obtain ⟨q, hq, hqp⟩ := hs r hr
    rw [keys_nodup_unique hnd hp hq]
    exact hqp
  · intro r hr p hp
    obtain ⟨q, hq, hqp⟩ := hc r hr
    rw [keys_nodup_unique hnd hp hq]
    exact hqp

/-- Witness for C10 on the concrete one-week instance. -/
theorem C10_preference_respected_witness :
    (∀ k l x, x ∈ idOracle k l → x ∈ l) ∧
      (prefsOne.map Prod.fst).Nodup ∧
      assign_shifts_backtracker cfgOne prefsOne ["W1"] idOracle = .ok (some schedOne) ∧
      ∀ g ∈ schedOne,
        (∀ r ∈ g.setup, ∀ p, (r.name, p) ∈ prefsOne →
          (p.preference = "s" ∨ p.preference = "s/c")) ∧
        (∀ r ∈ g.cleanup, ∀ p, (r.name, p) ∈ prefsOne →
          (p.preference = "c" ∨ p.preference = "s/c")) :=
  ⟨fun _ _ _ hx => hx, by decide, rfl,
    C10_preference_respected cfgOne prefsOne ["W1"] idOracle schedOne
      (fun _ _ _ hx => hx) (by decide) rfl⟩

end AssignShifts
